import Mathlib

/-
Verification of the SudokuMineSolver constraint-satisfaction engine
(proj2.py): a 9×9 Minesweeper-style puzzle with Sudoku block structure,
solved by backtracking search with MRV + degree variable ordering and
forward checking.

The embedding below translates the Python source function by function.
Python dicts are modelled as association lists (`Assign`) for the
assignment (whose length the search compares against the variable count)
and as a total function `Var → Finset ℕ` for the per-variable domains.
The mutable solver state threaded through the search is `SearchState`;
in addition to the two statistics fields of the source
(`nodes_generated`, `goal_depth`) it carries a ghost field `trace`
recording the depth of every `backtrack` invocation in call order, used
to state the node-counting and search-depth properties.
-/

namespace SudokuMine

abbrev Var := Nat × Nat

abbrev Grid := List (List Int)

abbrev Assign := List (Var × Nat)

abbrev Domains := Var → Finset Nat

/-- Grid lookup `self.grid[r][c]`; total with default 0 (all claims
evaluate grids on in-range coordinates of 9×9 grids). -/
def gridAt (g : Grid) (r c : Nat) : Int := (g.getD r []).getD c 0

/-- Dict lookup `assignment[v]` / membership `v in assignment`. -/
def alookup : Assign → Var → Option Nat
  | [], _ => none
  | (k, x) :: rest, v => if k = v then some x else alookup rest v

/-- Dict update `assignment[v] = val`: overwrite in place when the key is
present, otherwise add the new entry. -/
def dictInsert (a : Assign) (v : Var) (val : Nat) : Assign :=
  if (alookup a v).isSome then
    a.map (fun p => if p.1 = v then (v, val) else p)
  else
    (v, val) :: a

/-- Keys of an assignment. -/
def keysOf (a : Assign) : List Var := a.map Prod.fst

/-- Variables of the puzzle, from `initialize_csp`: all coordinates
(r, c), scanned in row-major order, whose grid value is 0. -/
def variablesOf (g : Grid) : List Var :=
  ((List.range 9).map (fun r =>
    (List.range 9).filterMap (fun c =>
      if gridAt g r c = 0 then some (r, c) else none))).flatten

/-- Initial domains from `initialize_csp`: `{0, 1}` for every variable. -/
def initDomains (vars : List Var) : Domains :=
  fun v => if v ∈ vars then ({0, 1} : Finset Nat) else ∅

/-- The up-to-8 neighbors of a cell, clipped to the 9×9 bounds
(`get_neighbors`). -/
def getNeighbors (r c : Nat) : List Var :=
  (([-1, 0, 1] : List Int).map (fun dr =>
    ([-1, 0, 1] : List Int).filterMap (fun dc =>
      if dr = 0 ∧ dc = 0 then none
      else
        let nr : Int := (r : Int) + dr
        let nc : Int := (c : Int) + dc
        if 0 ≤ nr ∧ nr < 9 ∧ 0 ≤ nc ∧ nc < 9 then
          some (nr.toNat, nc.toNat)
        else none))).flatten

/-- Sum of assigned mine values over the variable cells of a row
(the `mines` accumulator of `check_row_constraint`). -/
def minesRow (vars : List Var) (a : Assign) (row : Nat) : Nat :=
  ((List.range 9).map (fun c =>
    if (row, c) ∈ vars then (alookup a (row, c)).getD 0 else 0)).sum

/-- Count of unassigned variable cells of a row
(the `unassigned` accumulator of `check_row_constraint`). -/
def unassignedRow (vars : List Var) (a : Assign) (row : Nat) : Nat :=
  ((List.range 9).map (fun c =>
    if (row, c) ∈ vars ∧ alookup a (row, c) = none then 1 else 0)).sum

/-- Row checker `check_row_constraint`. -/
def checkRowConstraint (vars : List Var) (row : Nat) (a : Assign) : Bool :=
  let m := minesRow vars a row
  let u := unassignedRow vars a row
  if 3 < m then false
  else if u = 0 ∧ m ≠ 3 then false
  else if m + u < 3 then false
  else true

/-- Sum of assigned values over the cells of a column: the `mines`
accumulator of `check_col_constraint`, which (unlike the row checker)
does not filter on membership in the variable list. -/
def minesCol (a : Assign) (col : Nat) : Nat :=
  ((List.range 9).map (fun r => (alookup a (r, col)).getD 0)).sum

/-- Count of assigned cells of a column (`assigned_cells`). -/
def assignedCol (a : Assign) (col : Nat) : Nat :=
  ((List.range 9).map (fun r =>
    if (alookup a (r, col)).isSome then 1 else 0)).sum

/-- Number of variable cells of a column
(`len([1 for r in range(9) if (r, col) in self.variables])`). -/
def colVarCount (vars : List Var) (col : Nat) : Nat :=
  ((List.range 9).filter (fun r => decide ((r, col) ∈ vars))).length

/-- Column checker `check_col_constraint`. It rejects when the mine
count exceeds 3, and when all column variables are assigned with a mine
count other than 3; it has no cannot-reach-3 rule. -/
def checkColConstraint (vars : List Var) (col : Nat) (a : Assign) : Bool :=
  let m := minesCol a col
  if 3 < m then false
  else if assignedCol a col = colVarCount vars col ∧ m ≠ 3 then false
  else true

/-- The nine cells of the 3×3 block containing (row, col), scanned in the
order of `check_block_constraint`. -/
def blockCells (row col : Nat) : List Var :=
  ((List.range 3).map (fun i =>
    (List.range 3).map (fun j => (row / 3 * 3 + i, col / 3 * 3 + j)))).flatten

/-- Sum of assigned mine values over the variable cells of a block. -/
def minesBlock (vars : List Var) (a : Assign) (row col : Nat) : Nat :=
  ((blockCells row col).map (fun v =>
    if v ∈ vars then (alookup a v).getD 0 else 0)).sum

/-- Count of unassigned variable cells of a block. -/
def unknownBlock (vars : List Var) (a : Assign) (row col : Nat) : Nat :=
  ((blockCells row col).map (fun v =>
    if v ∈ vars ∧ alookup a v = none then 1 else 0)).sum

/-- Block checker `check_block_constraint`. -/
def checkBlockConstraint (vars : List Var) (row col : Nat) (a : Assign) : Bool :=
  let m := minesBlock vars a row col
  let u := unknownBlock vars a row col
  decide (m ≤ 3 ∧ 3 ≤ m + u ∧ (0 < u ∨ m = 3))

/-- Sum of assigned mine values over the neighbors of a cell (the
`mines` accumulator of `check_numbered_constraints`). -/
def minesNbr (a : Assign) (r c : Nat) : Nat :=
  ((getNeighbors r c).map (fun v => (alookup a v).getD 0)).sum

/-- Count of unassigned variable neighbors of a cell (the `unknown`
accumulator of `check_numbered_constraints`). -/
def unknownNbr (vars : List Var) (a : Assign) (r c : Nat) : Nat :=
  ((getNeighbors r c).map (fun v =>
    if v ∈ vars ∧ alookup a v = none then 1 else 0)).sum

/-- The single neighbor loop of `check_numbered_constraints`: accumulate
`mines` from assigned neighbors and `unknown` from unassigned variable
neighbors. -/
def nbrCounts (vars : List Var) (a : Assign) (r c : Nat) : Nat × Nat :=
  (getNeighbors r c).foldl (fun mu v =>
    match alookup a v with
    | some m => (mu.1 + m, mu.2)
    | none => if v ∈ vars then (mu.1, mu.2 + 1) else mu) (0, 0)

/-- Clue-neighborhood checker `check_numbered_constraints`: every cell of
the whole grid with a positive value is checked. -/
def checkNumberedConstraints (g : Grid) (vars : List Var) (a : Assign) : Bool :=
  (List.range 9).all (fun r => (List.range 9).all (fun c =>
    let required := gridAt g r c
    if required ≤ 0 then true
    else
      let mu := nbrCounts vars a r c
      if (mu.1 : Int) > required then false
      else if mu.2 = 0 ∧ (mu.1 : Int) ≠ required then false
      else true))

/-- Feasibility oracle `is_consistent`: all four checkers on the
assignment extended (on a copy) with `v := val`. -/
def isConsistent (g : Grid) (vars : List Var) (v : Var) (val : Nat)
    (a : Assign) : Bool :=
  let temp := dictInsert a v val
  checkRowConstraint vars v.1 temp &&
  checkColConstraint vars v.2 temp &&
  checkBlockConstraint vars v.1 v.2 temp &&
  checkNumberedConstraints g vars temp

/-- The set accumulated by `count_constraints`: other unassigned
variables sharing a row, column, block, or clue neighborhood with `v`,
collected by the four loops of the source in order. -/
def countConstraintsSet (g : Grid) (vars : List Var) (v : Var)
    (a : Assign) : Finset Var :=
  (List.range 9).foldl (fun s r => (List.range 9).foldl (fun s c =>
    if 0 < gridAt g r c ∧ v ∈ getNeighbors r c then
      (getNeighbors r c).foldl (fun s u =>
        if u ∈ vars ∧ alookup a u = none ∧ u ≠ v then insert u s else s) s
    else s) s)
    ((blockCells v.1 v.2).foldl (fun s u =>
      if u ∈ vars ∧ alookup a u = none ∧ u ≠ v then insert u s else s)
      ((List.range 9).foldl (fun s r =>
        if (r, v.2) ∈ vars ∧ alookup a (r, v.2) = none ∧ (r, v.2) ≠ v then
          insert ((r, v.2) : Var) s else s)
        ((List.range 9).foldl (fun s c =>
          if (v.1, c) ∈ vars ∧ alookup a (v.1, c) = none ∧ (v.1, c) ≠ v then
            insert ((v.1, c) : Var) s else s) (∅ : Finset Var))))

/-- Degree of a candidate variable: `count_constraints` returns the size
of the deduplicated set it accumulated. -/
def countConstraints (g : Grid) (vars : List Var) (v : Var)
    (a : Assign) : Nat :=
  (countConstraintsSet g vars v a).card

/-- Variable-ordering heuristic `select_unassigned_variable`:
minimum-remaining-values over the unassigned variables, ties broken by
taking the first candidate of strictly maximal degree (the running
maximum starts at -1). -/
def selectUnassignedVariable (g : Grid) (vars : List Var) (d : Domains)
    (a : Assign) : Option Var :=
  let unassigned := vars.filter (fun v => (alookup a v).isNone)
  match unassigned with
  | [] => none
  | u :: us =>
    let minSize := us.foldl (fun m w => min m (d w).card) (d u).card
    let mrvVars := (u :: us).filter (fun v => (d v).card = minSize)
    if mrvVars.length = 1 then mrvVars.head?
    else (mrvVars.foldl (fun p v =>
        if (countConstraints g vars v a : Int) > p.2 then
          (some v, (countConstraints g vars v a : Int))
        else p)
      ((none : Option Var), (-1 : Int))).1

/-- Removal record of forward checking: for each pruned variable, the
set of values removed from its domain, in pruning order. -/
abbrev Removed := List (Var × Finset Nat)

/-- Reinstate pruned values (`restore_domains`): union each recorded set
back into its variable's domain. -/
def restoreDomains (d : Domains) (removed : Removed) : Domains :=
  removed.foldl (fun d p => Function.update d p.1 (d p.1 ∪ p.2)) d

/-- Loop body of `forward_check` over the variable list: each unassigned
variable's domain values are tested against `temp`, failing values are
removed and recorded; on a domain wipeout every removal made so far is
restored and the sentinel `none` is returned. -/
def fcLoop (g : Grid) (vars : List Var) (temp a : Assign) :
    List Var → Domains → Removed → Option Removed × Domains
  | [], d, acc => (some acc, d)
  | v :: rest, d, acc =>
    if (alookup a v).isSome then fcLoop g vars temp a rest d acc
    else
      let t := (d v).filter (fun w => isConsistent g vars v w temp = false)
      if t = ∅ then fcLoop g vars temp a rest d acc
      else
        let d2 := Function.update d v (d v \ t)
        let acc2 := acc ++ [(v, t)]
        if d2 v = ∅ then (none, restoreDomains d2 acc2)
        else fcLoop g vars temp a rest d2 acc2

/-- Propagator `forward_check(var, value, assignment)`: the assignment
passed by `backtrack` already contains `var := val`, and `temp` is its
copy updated with the same binding. Returns the removal record (or the
failure sentinel `none`) together with the updated domains. -/
def forwardCheck (g : Grid) (vars : List Var) (v : Var) (val : Nat)
    (a : Assign) (d : Domains) : Option Removed × Domains :=
  let temp := dictInsert a v val
  fcLoop g vars temp a vars d []

/-- One forward-check/restore pair in the discipline of `backtrack`: run
the propagator, and if it succeeded, immediately undo its pruning with
`restore_domains`; a failed propagation has already restored its own
pruning internally. -/
def fcPair (g : Grid) (vars : List Var) (c : Var × Nat × Assign)
    (d : Domains) : Domains :=
  match forwardCheck g vars c.1 c.2.1 c.2.2 d with
  | (none, d2) => d2
  | (some rm, d2) => restoreDomains d2 rm

/-- Mutable solver state threaded through the search: the domain table
and the two statistics counters of the source, plus the ghost `trace`
recording the depth of every `backtrack` invocation in call order. -/
structure SearchState where
  domains : Domains
  nodes : Nat
  goalDepth : Nat
  trace : List Nat

/-- One iteration of the `for value in [0, 1]` loop of `backtrack`:
skip the value if it is not in the selected variable's current domain or
is inconsistent; otherwise bind it, run forward checking, and recurse via
`bt` on propagation success. `Sum.inl` propagates a solution upward
unchanged; `Sum.inr` is the state with which the next value is tried
after restoring the domains the propagator pruned (the binding itself is
undone by continuing with the original assignment `a`). -/
def attemptVal (g : Grid) (vars : List Var)
    (bt : Assign → SearchState → Option Assign × SearchState)
    (var : Var) (val : Nat) (a : Assign) (st : SearchState) :
    (Option Assign × SearchState) ⊕ SearchState :=
  if val ∈ st.domains var then
    if isConsistent g vars var val a then
      let a2 := dictInsert a var val
      match forwardCheck g vars var val a2 st.domains with
      | (none, d2) => Sum.inr { st with domains := d2 }
      | (some removed, d2) =>
        match bt a2 { st with domains := d2 } with
        | (some res, st2) => Sum.inl (some res, st2)
        | (none, st2) =>
          Sum.inr { st2 with
            domains := restoreDomains st2.domains removed }
    else Sum.inr st
  else Sum.inr st

/-- Backtracking search `backtrack(assignment, depth)`, structural on a
fuel argument (the fuel `solve` supplies can never run out, because every
recursive call grows the assignment by one fresh variable). Each
invocation increments the node counter and appends its depth to the
ghost trace; a complete assignment is returned as the solution and its
depth recorded; otherwise the two domain values are tried in the fixed
order 0 then 1, and `none` is returned when both fail. An incomplete
assignment for which no variable is selected cannot occur (the source
would raise); it returns `none`. -/
def backtrack (g : Grid) (vars : List Var) :
    Nat → SearchState → Assign → Nat → Option Assign × SearchState
  | 0, st, _, _ => (none, st)
  | fuel + 1, st, a, depth =>
    let st1 := { st with nodes := st.nodes + 1, trace := st.trace ++ [depth] }
    if a.length = vars.length then
      (some a, { st1 with goalDepth := depth })
    else
      match selectUnassignedVariable g vars st1.domains a with
      | none => (none, st1)
      | some var =>
        match attemptVal g vars
            (fun a2 s2 => backtrack g vars fuel s2 a2 (depth + 1))
            var 0 a st1 with
        | Sum.inl r => r
        | Sum.inr st2 =>
          match attemptVal g vars
              (fun a2 s2 => backtrack g vars fuel s2 a2 (depth + 1))
              var 1 a st2 with
          | Sum.inl r => r
          | Sum.inr st3 => (none, st3)

/-- Write one binding into the solution grid (`self.solution[r][c] = value`). -/
def setCell (sol : List (List Nat)) (r c val : Nat) : List (List Nat) :=
  sol.set r ((sol.getD r []).set c val)

/-- The all-zero 9×9 solution grid created by `__init__`. -/
def initSolution : List (List Nat) :=
  List.replicate 9 (List.replicate 9 0)

/-- Convert a complete assignment to the solution grid (`solve`). -/
def writeSolution (sol : List (List Nat)) (a : Assign) : List (List Nat) :=
  a.foldl (fun sol p => setCell sol p.1.1 p.1.2 p.2) sol

/-- Solution grid lookup. -/
def solutionAt (sol : List (List Nat)) (r c : Nat) : Nat :=
  (sol.getD r []).getD c 0

/-- Outcome of `solve()` together with the statistics readable afterwards. -/
structure SolveResult where
  success : Bool
  solution : List (List Nat)
  goalDepth : Nat
  nodes : Nat
  trace : List Nat
  deriving Repr, DecidableEq

/-- The solver object built by `__init__` from an already-parsed grid:
grid, all-zero solution, variables and initial domains, zeroed counters.
No validation of any kind is performed. -/
structure Solver where
  grid : Grid
  solution : List (List Nat)
  varList : List Var
  nodes : Nat
  goalDepth : Nat

/-- Construction (`read_input` + `initialize_csp`) from a parsed grid. -/
def mkSolver (g : Grid) : Solver :=
  ⟨g, initSolution, variablesOf g, 0, 0⟩

/-- Run of `solve()` with the variable list made explicit: backtracking
from the empty assignment at depth 0; on success the assignment is
written into the solution grid, on failure the solution grid is left
all-zero. The fuel `variable count + 1` can never run out because each
recursive call binds one fresh variable. -/
def solveWith (g : Grid) (vars : List Var) : SolveResult :=
  let st0 : SearchState := ⟨initDomains vars, 0, 0, []⟩
  match backtrack g vars (vars.length + 1) st0 [] 0 with
  | (none, st) => ⟨false, initSolution, st.goalDepth, st.nodes, st.trace⟩
  | (some A, st) =>
    ⟨true, writeSolution initSolution A, st.goalDepth, st.nodes, st.trace⟩

/-- Full run of `solve()` on a grid. -/
def solveFull (g : Grid) : SolveResult :=
  solveWith g (variablesOf g)

/-- A 9×9 grid whose every cell holds the clue 1: it has no blank cell,
so the very first `backtrack` call sees a complete (empty) assignment
and reports success without evaluating a single constraint. -/
def gridAllOnes : Grid :=
  [[1, 1, 1, 1, 1, 1, 1, 1, 1],
   [1, 1, 1, 1, 1, 1, 1, 1, 1],
   [1, 1, 1, 1, 1, 1, 1, 1, 1],
   [1, 1, 1, 1, 1, 1, 1, 1, 1],
   [1, 1, 1, 1, 1, 1, 1, 1, 1],
   [1, 1, 1, 1, 1, 1, 1, 1, 1],
   [1, 1, 1, 1, 1, 1, 1, 1, 1],
   [1, 1, 1, 1, 1, 1, 1, 1, 1],
   [1, 1, 1, 1, 1, 1, 1, 1, 1]]

/-- A 9×9 grid whose every cell holds 9: every value is outside the
documented clue range [0,8], yet construction accepts it. -/
def gridAllNines : Grid :=
  [[9, 9, 9, 9, 9, 9, 9, 9, 9],
   [9, 9, 9, 9, 9, 9, 9, 9, 9],
   [9, 9, 9, 9, 9, 9, 9, 9, 9],
   [9, 9, 9, 9, 9, 9, 9, 9, 9],
   [9, 9, 9, 9, 9, 9, 9, 9, 9],
   [9, 9, 9, 9, 9, 9, 9, 9, 9],
   [9, 9, 9, 9, 9, 9, 9, 9, 9],
   [9, 9, 9, 9, 9, 9, 9, 9, 9],
   [9, 9, 9, 9, 9, 9, 9, 9, 9]]

/-- The all-blank 9×9 grid: all 81 cells are variables. -/
def gridAllZeros : Grid :=
  [[0, 0, 0, 0, 0, 0, 0, 0, 0],
   [0, 0, 0, 0, 0, 0, 0, 0, 0],
   [0, 0, 0, 0, 0, 0, 0, 0, 0],
   [0, 0, 0, 0, 0, 0, 0, 0, 0],
   [0, 0, 0, 0, 0, 0, 0, 0, 0],
   [0, 0, 0, 0, 0, 0, 0, 0, 0],
   [0, 0, 0, 0, 0, 0, 0, 0, 0],
   [0, 0, 0, 0, 0, 0, 0, 0, 0],
   [0, 0, 0, 0, 0, 0, 0, 0, 0]]

/-- A small satisfiable instance: nine blank cells at rows 0-2 ×
columns 0, 3, 6 (three per row, per column, and per touched block), one
clue cell (0,1) = 2 whose blank neighbors (0,0) and (1,0) must both be
mined, and every remaining cell −1 (negative, hence skipped by the
clue-neighborhood checker, exactly as `required <= 0` is in the source).
The unique solution mines all nine blanks. -/
def gridSmall : Grid :=
  [[0, 2, -1, 0, -1, -1, 0, -1, -1],
   [0, -1, -1, 0, -1, -1, 0, -1, -1],
   [0, -1, -1, 0, -1, -1, 0, -1, -1],
   [-1, -1, -1, -1, -1, -1, -1, -1, -1],
   [-1, -1, -1, -1, -1, -1, -1, -1, -1],
   [-1, -1, -1, -1, -1, -1, -1, -1, -1],
   [-1, -1, -1, -1, -1, -1, -1, -1, -1],
   [-1, -1, -1, -1, -1, -1, -1, -1, -1],
   [-1, -1, -1, -1, -1, -1, -1, -1, -1]]

/-- The variables of `gridSmall`, in the row-major order
`initialize_csp` produces. -/
def varsSmall : List Var :=
  [(0, 0), (0, 3), (0, 6), (1, 0), (1, 3), (1, 6), (2, 0), (2, 3), (2, 6)]

/-- An unsatisfiable variant of the small instance: the same nine blank
cells, but the clue cell (2,7) = 1 undercounts its two blank neighbors
(1,6) and (2,6), both of which every consistent search path must mine.
The search explores a few levels before a forward-checking wipeout
exhausts it. -/
def gridSmallFail : Grid :=
  [[0, -1, -1, 0, -1, -1, 0, -1, -1],
   [0, -1, -1, 0, -1, -1, 0, -1, -1],
   [0, -1, -1, 0, -1, -1, 0, 1, -1],
   [-1, -1, -1, -1, -1, -1, -1, -1, -1],
   [-1, -1, -1, -1, -1, -1, -1, -1, -1],
   [-1, -1, -1, -1, -1, -1, -1, -1, -1],
   [-1, -1, -1, -1, -1, -1, -1, -1, -1],
   [-1, -1, -1, -1, -1, -1, -1, -1, -1],
   [-1, -1, -1, -1, -1, -1, -1, -1, -1]]

/-- A grid has the documented 9×9 dimensions. -/
def dims9 (g : Grid) : Prop :=
  g.length = 9 ∧ ∀ row ∈ g, row.length = 9

/-- Sum of solution values over the variable (blank) cells of a row. -/
def sumRowVars (g : Grid) (sol : List (List Nat)) (row : Nat) : Nat :=
  ((List.range 9).map (fun c =>
    if gridAt g row c = 0 then solutionAt sol row c else 0)).sum

/-- Sum of solution values over the variable (blank) cells of a column. -/
def sumColVars (g : Grid) (sol : List (List Nat)) (col : Nat) : Nat :=
  ((List.range 9).map (fun r =>
    if gridAt g r col = 0 then solutionAt sol r col else 0)).sum

/-- Sum of solution values over the variable (blank) cells of block
`b` (0..8), whose top-left corner is `(b / 3 * 3, b % 3 * 3)`. -/
def sumBlockVars (g : Grid) (sol : List (List Nat)) (b : Nat) : Nat :=
  ((blockCells (b / 3 * 3) (b % 3 * 3)).map (fun v =>
    if gridAt g v.1 v.2 = 0 then solutionAt sol v.1 v.2 else 0)).sum

/-- Sum of solution values over the up-to-8 neighbor cells of a cell. -/
def nbrSolutionSum (sol : List (List Nat)) (r c : Nat) : Nat :=
  ((getNeighbors r c).map (fun v => solutionAt sol v.1 v.2)).sum

/-- The solution grid the solver finds for `gridSmall`: all nine blank
cells mined. -/
def solutionSmall : List (List Nat) :=
  [[1, 0, 0, 1, 0, 0, 1, 0, 0],
   [1, 0, 0, 1, 0, 0, 1, 0, 0],
   [1, 0, 0, 1, 0, 0, 1, 0, 0],
   [0, 0, 0, 0, 0, 0, 0, 0, 0],
   [0, 0, 0, 0, 0, 0, 0, 0, 0],
   [0, 0, 0, 0, 0, 0, 0, 0, 0],
   [0, 0, 0, 0, 0, 0, 0, 0, 0],
   [0, 0, 0, 0, 0, 0, 0, 0, 0],
   [0, 0, 0, 0, 0, 0, 0, 0, 0]]

/-- Modelled from the spec: two cells share a constraint when they are
in the same row, the same column, the same 3×3 block, or are both
neighbors of a common clue (positive-valued) cell. Used to characterize
the degree computed by `count_constraints`. -/
def sharesConstraint (g : Grid) (v w : Var) : Prop :=
  v.1 = w.1 ∨ v.2 = w.2 ∨ (v.1 / 3 = w.1 / 3 ∧ v.2 / 3 = w.2 / 3) ∨
    ∃ r ∈ Finset.range 9, ∃ c ∈ Finset.range 9,
      0 < gridAt g r c ∧ v ∈ getNeighbors r c ∧ w ∈ getNeighbors r c

instance (g : Grid) (v w : Var) : Decidable (sharesConstraint g v w) := by
  unfold sharesConstraint
  infer_instance

/-! ### Dictionary lemmas -/

theorem alookup_eq_none_iff (a : Assign) (v : Var) :
    alookup a v = none ↔ v ∉ keysOf a := by
  induction a with
  | nil => simp [alookup, keysOf]
  | cons p rest ih =>
    obtain ⟨k, x⟩ := p
    by_cases h : k = v
    · subst h; simp [alookup, keysOf]
    · simp [alookup, h, keysOf, ih, Ne.symm h]

theorem alookup_isSome_iff (a : Assign) (v : Var) :
    (alookup a v).isSome = true ↔ v ∈ keysOf a := by
  rw [Option.isSome_iff_ne_none]
  have := alookup_eq_none_iff a v
  tauto

theorem alookup_cons (k : Var) (x : Nat) (rest : Assign) (u : Var) :
    alookup ((k, x) :: rest) u = if k = u then some x else alookup rest u :=
  rfl

theorem dictInsert_of_lookup_none (a : Assign) (v : Var) (val : Nat)
    (h : alookup a v = none) : dictInsert a v val = (v, val) :: a := by
  unfold dictInsert
  simp [h]

theorem mapReplace_of_not_mem (a : Assign) (v : Var) (val : Nat)
    (h : v ∉ keysOf a) :
    (a.map fun p => if p.1 = v then (v, val) else p) = a := by
  induction a with
  | nil => rfl
  | cons p rest ih =>
    obtain ⟨k, x⟩ := p
    simp only [keysOf, List.map_cons, List.mem_cons, not_or] at h ⊢
    rw [if_neg (by simpa using Ne.symm h.1), ih h.2]

theorem dictInsert_of_lookup_some (a : Assign) (v : Var) (val : Nat)
    (hnd : (keysOf a).Nodup) (h : alookup a v = some val) :
    dictInsert a v val = a := by
  unfold dictInsert
  rw [h]
  simp only [Option.isSome_some, if_true]
  induction a with
  | nil => rfl
  | cons p rest ih =>
    obtain ⟨k, x⟩ := p
    simp only [keysOf, List.map_cons, List.nodup_cons] at hnd ⊢
    rw [alookup_cons] at h
    by_cases hkv : k = v
    · subst hkv
      rw [if_pos rfl] at h ⊢
      simp only [Option.some.injEq] at h
      rw [← h, mapReplace_of_not_mem rest k x hnd.1]
    · rw [if_neg hkv] at h
      rw [if_neg (by simpa using hkv), ih hnd.2 h]

theorem keysOf_dictInsert_of_not_mem (a : Assign) (v : Var) (val : Nat)
    (h : v ∉ keysOf a) :
    keysOf (dictInsert a v val) = v :: keysOf a := by
  unfold dictInsert
  rw [← alookup_eq_none_iff] at h
  simp [h, keysOf]

theorem length_dictInsert_of_not_mem (a : Assign) (v : Var) (val : Nat)
    (h : v ∉ keysOf a) :
    (dictInsert a v val).length = a.length + 1 := by
  unfold dictInsert
  rw [← alookup_eq_none_iff] at h
  simp [h]

/-! ### Domain restoration lemmas -/

theorem restoreDomains_nil (d : Domains) : restoreDomains d [] = d := rfl

theorem restoreDomains_concat (d : Domains) (rm : Removed) (v : Var)
    (s : Finset Nat) :
    restoreDomains d (rm ++ [(v, s)]) =
      Function.update (restoreDomains d rm) v (restoreDomains d rm v ∪ s) := by
  unfold restoreDomains
  rw [List.foldl_append]
  rfl

theorem restoreDomains_apply_not_mem (d : Domains) (rm : Removed) (v : Var)
    (h : v ∉ rm.map Prod.fst) : restoreDomains d rm v = d v := by
  induction rm generalizing d with
  | nil => rfl
  | cons p rest ih =>
    obtain ⟨k, s⟩ := p
    simp only [List.map_cons, List.mem_cons, not_or] at h
    show restoreDomains (Function.update d k (d k ∪ s)) rest v = d v
    rw [ih _ h.2, Function.update_noteq h.1]

theorem restoreDomains_update_comm (d : Domains) (rm : Removed) (v : Var)
    (s : Finset Nat) (h : v ∉ rm.map Prod.fst) :
    restoreDomains (Function.update d v s) rm =
      Function.update (restoreDomains d rm) v s := by
  induction rm generalizing d with
  | nil => rfl
  | cons p rest ih =>
    obtain ⟨k, t⟩ := p
    simp only [List.map_cons, List.mem_cons, not_or] at h
    show restoreDomains
        (Function.update (Function.update d v s) k
          (Function.update d v s k ∪ t)) rest =
      Function.update (restoreDomains (Function.update d k (d k ∪ t)) rest) v s
    rw [Function.update_noteq (Ne.symm h.1), Function.update_comm h.1,
      ih _ h.2]

/-- Loop invariant of `forward_check`: restoring the removal record
accumulated so far always recovers the domains the call was entered
with; hence on wipeout the restored domains equal the entry domains, and
on success restoring the returned record recovers them as well. -/
theorem fcLoop_spec (g : Grid) (vars : List Var) (temp a : Assign)
    (d0 : Domains) :
    ∀ (rest : List Var) (d : Domains) (acc : Removed),
      rest.Nodup → (∀ v ∈ rest, v ∉ acc.map Prod.fst) →
      restoreDomains d acc = d0 →
      (((fcLoop g vars temp a rest d acc).1 = none →
          (fcLoop g vars temp a rest d acc).2 = d0) ∧
        (∀ rm, (fcLoop g vars temp a rest d acc).1 = some rm →
          restoreDomains (fcLoop g vars temp a rest d acc).2 rm = d0)) := by
  intro rest
  induction rest with
  | nil =>
    intro d acc _ _ hinv
    refine ⟨by intro h; simp [fcLoop] at h, ?_⟩
    intro rm hrm
    simp only [fcLoop] at hrm ⊢
    obtain rfl : acc = rm := by simpa using hrm
    exact hinv
  | cons v rest ih =>
    intro d acc hnd hdisj hinv
    rw [List.nodup_cons] at hnd
    by_cases hassigned : (alookup a v).isSome = true
    · have hstep : fcLoop g vars temp a (v :: rest) d acc =
          fcLoop g vars temp a rest d acc := by
        simp [fcLoop, hassigned]
      rw [hstep]
      exact ih d acc hnd.2 (fun u hu => hdisj u (List.mem_cons_of_mem _ hu))
        hinv
    · set t := (d v).filter (fun w => isConsistent g vars v w temp = false)
        with ht
      by_cases htempty : t = ∅
      · have hstep : fcLoop g vars temp a (v :: rest) d acc =
            fcLoop g vars temp a rest d acc := by
          simp [fcLoop, hassigned, ← ht, htempty]
        rw [hstep]
        exact ih d acc hnd.2
          (fun u hu => hdisj u (List.mem_cons_of_mem _ hu)) hinv
      · have hvacc : v ∉ acc.map Prod.fst := hdisj v (List.mem_cons_self v rest)
        have htsub : t ⊆ d v := ht ▸ Finset.filter_subset _ _
        have hdv : d v = d0 v := by
          rw [← hinv, restoreDomains_apply_not_mem d acc v hvacc]
        have hinv2 : restoreDomains (Function.update d v (d v \ t))
            (acc ++ [(v, t)]) = d0 := by
          rw [restoreDomains_concat,
            restoreDomains_update_comm d acc v (d v \ t) hvacc, hinv,
            Function.update_same, Function.update_idem,
            Finset.sdiff_union_of_subset htsub, hdv,
            Function.update_eq_self]
        by_cases hwipe : d v ⊆ t
        · have hstep : fcLoop g vars temp a (v :: rest) d acc =
              (none, restoreDomains (Function.update d v (d v \ t))
                (acc ++ [(v, t)])) := by
            simp [fcLoop, hassigned, ← ht, htempty, Function.update_same,
              hwipe]
          rw [hstep]
          refine ⟨fun _ => hinv2, ?_⟩
          intro rm hrm
          simp at hrm
        · have hstep : fcLoop g vars temp a (v :: rest) d acc =
              fcLoop g vars temp a rest (Function.update d v (d v \ t))
                (acc ++ [(v, t)]) := by
            simp [fcLoop, hassigned, ← ht, htempty, Function.update_same,
              hwipe]
          rw [hstep]
          refine ih _ _ hnd.2 ?_ hinv2
          intro u hu
          simp only [List.map_append, List.mem_append, List.map_cons,
            List.map_nil, List.mem_singleton, not_or]
          exact ⟨hdisj u (List.mem_cons_of_mem _ hu),
            fun he => hnd.1 (he ▸ hu)⟩

/-- On failure, `forward_check` has restored exactly its own removals:
the domains it returns are the domains it was entered with. -/
theorem forwardCheck_none_restores (g : Grid) (vars : List Var) (v : Var)
    (val : Nat) (a : Assign) (d : Domains) (hnd : vars.Nodup)
    (h : (forwardCheck g vars v val a d).1 = none) :
    (forwardCheck g vars v val a d).2 = d := by
  have := fcLoop_spec g vars (dictInsert a v val) a d vars d [] hnd
    (by simp) (restoreDomains_nil d)
  exact this.1 h

/-- On success, restoring the removal record returned by `forward_check`
recovers exactly the domains it was entered with. -/
theorem forwardCheck_some_restores (g : Grid) (vars : List Var) (v : Var)
    (val : Nat) (a : Assign) (d : Domains) (hnd : vars.Nodup) (rm : Removed)
    (h : (forwardCheck g vars v val a d).1 = some rm) :
    restoreDomains (forwardCheck g vars v val a d).2 rm = d := by
  have := fcLoop_spec g vars (dictInsert a v val) a d vars d [] hnd
    (by simp) (restoreDomains_nil d)
  exact this.2 rm h

/-- Any forward-check/restore pair leaves the domain table unchanged. -/
theorem fcPair_id (g : Grid) (vars : List Var) (hnd : vars.Nodup)
    (c : Var × Nat × Assign) (d : Domains) : fcPair g vars c d = d := by
  unfold fcPair
  rcases hfc : forwardCheck g vars c.1 c.2.1 c.2.2 d with ⟨res, d2⟩
  cases res with
  | none =>
    have := forwardCheck_none_restores g vars c.1 c.2.1 c.2.2 d hnd
      (by rw [hfc])
    rw [hfc] at this
    simpa using this
  | some rm =>
    have := forwardCheck_some_restores g vars c.1 c.2.1 c.2.2 d hnd rm
      (by rw [hfc])
    rw [hfc] at this
    simpa using this

/-- C4: on every forward-checking invocation that ends in a domain
wipeout, the propagator restores exactly the removals it made in that
invocation — the domain table it returns equals the one it was entered
with — and its failure result `none` is a sentinel distinct from every
successful removal record `some rm`, in particular from the empty
record `some []`. -/
theorem forwardCheck_wipeout_restores_entry_domains (g : Grid)
    (vars : List Var) (v : Var) (val : Nat) (a : Assign) (d : Domains)
    (hnd : vars.Nodup)
    (h : (forwardCheck g vars v val a d).1 = none) :
    (forwardCheck g vars v val a d).2 = d ∧
      ∀ rm : Removed, (forwardCheck g vars v val a d).1 ≠ some rm := by
  refine ⟨forwardCheck_none_restores g vars v val a d hnd h, ?_⟩
  intro rm hrm
  rw [h] at hrm
  exact Option.noConfusion hrm

/-- Witness for C4: on the all-blank grid with the three row-0 variables
(0,0), (0,3), (0,6), binding (0,0) := 0 wipes out the domain of (0,3)
(neither of its values can complete the row to three mines), and the
propagator returns the initial domains unchanged. -/
theorem forwardCheck_wipeout_restores_entry_domains_witness :
    (forwardCheck gridAllZeros [(0, 0), (0, 3), (0, 6)] (0, 0) 0
        [((0, 0), 0)] (initDomains [(0, 0), (0, 3), (0, 6)])).1 = none ∧
      (forwardCheck gridAllZeros [(0, 0), (0, 3), (0, 6)] (0, 0) 0
        [((0, 0), 0)] (initDomains [(0, 0), (0, 3), (0, 6)])).2 =
        initDomains [(0, 0), (0, 3), (0, 6)] :=
  ⟨by decide,
    (forwardCheck_wipeout_restores_entry_domains gridAllZeros
      [(0, 0), (0, 3), (0, 6)] (0, 0) 0 [((0, 0), 0)]
      (initDomains [(0, 0), (0, 3), (0, 6)]) (by decide) (by decide)).1⟩

/-- C5: restoring the removal record of any successful forward-check
call recovers every variable's domain exactly as it was before the
call, and consequently any sequence of properly paired
forward-check/restore steps leaves the domain table exactly as it was
before the sequence began. -/
theorem forwardCheck_restore_roundtrip (g : Grid) (vars : List Var)
    (hnd : vars.Nodup) :
    (∀ (v : Var) (val : Nat) (a : Assign) (d : Domains) (rm : Removed),
        (forwardCheck g vars v val a d).1 = some rm →
        restoreDomains (forwardCheck g vars v val a d).2 rm = d) ∧
      ∀ (steps : List (Var × Nat × Assign)) (d : Domains),
        steps.foldl (fun dd c => fcPair g vars c dd) d = d := by
  refine ⟨fun v val a d rm h =>
    forwardCheck_some_restores g vars v val a d hnd rm h, ?_⟩
  intro steps
  induction steps with
  | nil => intro d; rfl
  | cons c rest ih =>
    intro d
    rw [List.foldl_cons, fcPair_id g vars hnd c d]
    exact ih d

/-- Witness for C5: on the small satisfiable grid, binding (0,0) := 1
prunes the value 0 from all eight other variables; restoring that record
recovers the initial domains. -/
theorem forwardCheck_restore_roundtrip_witness :
    (forwardCheck gridSmall varsSmall (0, 0) 1 [((0, 0), 1)]
        (initDomains varsSmall)).1 =
      some [((0, 3), {0}), ((0, 6), {0}), ((1, 0), {0}), ((1, 3), {0}),
        ((1, 6), {0}), ((2, 0), {0}), ((2, 3), {0}), ((2, 6), {0})] ∧
      restoreDomains
        (forwardCheck gridSmall varsSmall (0, 0) 1 [((0, 0), 1)]
          (initDomains varsSmall)).2
        [((0, 3), {0}), ((0, 6), {0}), ((1, 0), {0}), ((1, 3), {0}),
          ((1, 6), {0}), ((2, 0), {0}), ((2, 3), {0}), ((2, 6), {0})] =
        initDomains varsSmall :=
  ⟨by decide,
    (forwardCheck_restore_roundtrip gridSmall varsSmall (by decide)).1
      (0, 0) 1 [((0, 0), 1)] (initDomains varsSmall) _ (by decide)⟩

/-- C2 (failing-input evaluation): on the all-blank grid, with the seven
column-0 cells (0,0)…(6,0) assigned 0, the column checker accepts even
though the 0 confirmed mines plus 2 unbound column variables cannot
reach 3 — while the row checker rejects the transposed situation (the
seven row-0 cells (0,0)…(0,6) assigned 0). The column checker therefore
does not apply the same three rules as the row checker. -/
theorem checkCol_accepts_unreachable_count :
    checkColConstraint (variablesOf gridAllZeros) 0
      [((0, 0), 0), ((1, 0), 0), ((2, 0), 0), ((3, 0), 0), ((4, 0), 0),
        ((5, 0), 0), ((6, 0), 0)] = true ∧
    minesCol
      [((0, 0), 0), ((1, 0), 0), ((2, 0), 0), ((3, 0), 0), ((4, 0), 0),
        ((5, 0), 0), ((6, 0), 0)] 0 = 0 ∧
    colVarCount (variablesOf gridAllZeros) 0 -
      assignedCol
        [((0, 0), 0), ((1, 0), 0), ((2, 0), 0), ((3, 0), 0), ((4, 0), 0),
          ((5, 0), 0), ((6, 0), 0)] 0 = 2 ∧
    checkRowConstraint (variablesOf gridAllZeros) 0
      [((0, 0), 0), ((0, 1), 0), ((0, 2), 0), ((0, 3), 0), ((0, 4), 0),
        ((0, 5), 0), ((0, 6), 0)] = false := by
  decide

/-- C8 (failing-input evaluation): a 9×9 grid whose every value is 9 —
outside the documented range [0,8] — is accepted by construction with no
error of any kind, and `solve()` even runs and reports success on it;
appending a tenth row is likewise accepted, because `initialize_csp`
only ever scans the first nine rows. No `InvalidGrid` failure exists in
the code. -/
theorem construction_accepts_invalid_grid :
    mkSolver gridAllNines =
      ⟨gridAllNines, initSolution, [], 0, 0⟩ ∧
    (solveFull gridAllNines).success = true ∧
    (solveFull (gridAllNines ++ [[0]])).success = true := by
  refine ⟨rfl, by decide, by decide⟩

/-! ### Degree computation lemmas -/

theorem mem_foldl_step {β : Type} (step : Finset Var → β → Finset Var)
    (Q : β → Var → Prop)
    (hstep : ∀ s b x, x ∈ step s b ↔ x ∈ s ∨ Q b x) :
    ∀ (l : List β) (s0 : Finset Var) (x : Var),
      x ∈ l.foldl step s0 ↔ x ∈ s0 ∨ ∃ b ∈ l, Q b x := by
  intro l
  induction l with
  | nil => simp
  | cons b rest ih =>
    intro s0 x
    rw [List.foldl_cons, ih, hstep]
    simp only [List.mem_cons]
    constructor
    · rintro ((hx | hq) | ⟨b2, hb2, hq⟩)
      · exact Or.inl hx
      · exact Or.inr ⟨b, Or.inl rfl, hq⟩
      · exact Or.inr ⟨b2, Or.inr hb2, hq⟩
    · rintro (hx | ⟨b2, (rfl | hb2), hq⟩)
      · exact Or.inl (Or.inl hx)
      · exact Or.inl (Or.inr hq)
      · exact Or.inr ⟨b2, hb2, hq⟩

theorem mem_blockCells (r c : Nat) (w : Var) :
    w ∈ blockCells r c ↔ w.1 / 3 = r / 3 ∧ w.2 / 3 = c / 3 := by
  obtain ⟨w1, w2⟩ := w
  simp only [blockCells, List.mem_flatten, List.mem_map, List.mem_range]
  constructor
  · rintro ⟨l, ⟨i, hi, rfl⟩, hw⟩
    simp only [List.mem_map, List.mem_range, Prod.mk.injEq] at hw
    obtain ⟨j, hj, h1, h2⟩ := hw
    constructor <;> omega
  · rintro ⟨h1, h2⟩
    refine ⟨_, ⟨w1 % 3, by omega, rfl⟩, ?_⟩
    simp only [List.mem_map, List.mem_range, Prod.mk.injEq]
    exact ⟨w2 % 3, by omega, by omega, by omega⟩

theorem countConstraintsSet_eq (g : Grid) (vars : List Var) (v : Var)
    (a : Assign) (hb : ∀ w ∈ vars, w.1 < 9 ∧ w.2 < 9) :
    countConstraintsSet g vars v a =
      vars.toFinset.filter
        (fun w => alookup a w = none ∧ w ≠ v ∧ sharesConstraint g v w) := by
  have hins : ∀ (cond : Var → Prop) [DecidablePred cond]
      (s : Finset Var) (u x : Var),
      (x ∈ if cond u then insert u s else s) ↔
        x ∈ s ∨ (cond u ∧ x = u) := by
    intro cond _ s u x
    split_ifs with hc
    · simp only [Finset.mem_insert]
      constructor
      · rintro (rfl | hx)
        · exact Or.inr ⟨hc, rfl⟩
        · exact Or.inl hx
      · rintro (hx | ⟨_, rfl⟩)
        · exact Or.inr hx
        · exact Or.inl rfl
    · constructor
      · exact Or.inl
      · rintro (hx | ⟨hcond, _⟩)
        · exact hx
        · exact absurd hcond hc
  have h1 : ∀ (s0 : Finset Var) (x : Var),
      x ∈ (List.range 9).foldl (fun s c =>
        if (v.1, c) ∈ vars ∧ alookup a (v.1, c) = none ∧ (v.1, c) ≠ v then
          insert ((v.1, c) : Var) s else s) s0 ↔
      x ∈ s0 ∨ ∃ c ∈ List.range 9,
        ((v.1, c) ∈ vars ∧ alookup a (v.1, c) = none ∧ (v.1, c) ≠ v) ∧
          x = (v.1, c) := by
    intro s0 x
    exact mem_foldl_step _
      (fun c x =>
        ((v.1, c) ∈ vars ∧ alookup a (v.1, c) = none ∧ (v.1, c) ≠ v) ∧
          x = (v.1, c))
      (fun s b x => hins (fun u => u ∈ vars ∧ alookup a u = none ∧ u ≠ v) s (v.1, b) x) _ s0 x
  have h2 : ∀ (s0 : Finset Var) (x : Var),
      x ∈ (List.range 9).foldl (fun s r =>
        if (r, v.2) ∈ vars ∧ alookup a (r, v.2) = none ∧ (r, v.2) ≠ v then
          insert ((r, v.2) : Var) s else s) s0 ↔
      x ∈ s0 ∨ ∃ r ∈ List.range 9,
        ((r, v.2) ∈ vars ∧ alookup a (r, v.2) = none ∧ (r, v.2) ≠ v) ∧
          x = (r, v.2) := by
    intro s0 x
    exact mem_foldl_step _
      (fun r x =>
        ((r, v.2) ∈ vars ∧ alookup a (r, v.2) = none ∧ (r, v.2) ≠ v) ∧
          x = (r, v.2))
      (fun s b x => hins (fun u => u ∈ vars ∧ alookup a u = none ∧ u ≠ v) s (b, v.2) x) _ s0 x
  have h3 : ∀ (s0 : Finset Var) (x : Var),
      x ∈ (blockCells v.1 v.2).foldl (fun s u =>
        if u ∈ vars ∧ alookup a u = none ∧ u ≠ v then insert u s else s)
          s0 ↔
      x ∈ s0 ∨ ∃ u ∈ blockCells v.1 v.2,
        (u ∈ vars ∧ alookup a u = none ∧ u ≠ v) ∧ x = u := by
    intro s0 x
    exact mem_foldl_step _
      (fun u x => (u ∈ vars ∧ alookup a u = none ∧ u ≠ v) ∧ x = u)
      (fun s b x => hins (fun u => u ∈ vars ∧ alookup a u = none ∧ u ≠ v) s b x) _ s0 x
  have hN : ∀ (r c : Nat) (s0 : Finset Var) (x : Var),
      x ∈ (getNeighbors r c).foldl (fun s u =>
        if u ∈ vars ∧ alookup a u = none ∧ u ≠ v then insert u s else s)
          s0 ↔
      x ∈ s0 ∨ ∃ u ∈ getNeighbors r c,
        (u ∈ vars ∧ alookup a u = none ∧ u ≠ v) ∧ x = u := by
    intro r c s0 x
    exact mem_foldl_step _
      (fun u x => (u ∈ vars ∧ alookup a u = none ∧ u ≠ v) ∧ x = u)
      (fun s b x => hins (fun u => u ∈ vars ∧ alookup a u = none ∧ u ≠ v) s b x) _ s0 x
  have hC : ∀ (r : Nat) (s0 : Finset Var) (x : Var),
      x ∈ (List.range 9).foldl (fun s c =>
        if 0 < gridAt g r c ∧ v ∈ getNeighbors r c then
          (getNeighbors r c).foldl (fun s u =>
            if u ∈ vars ∧ alookup a u = none ∧ u ≠ v then insert u s
            else s) s
        else s) s0 ↔
      x ∈ s0 ∨ ∃ c ∈ List.range 9,
        (0 < gridAt g r c ∧ v ∈ getNeighbors r c) ∧
          ∃ u ∈ getNeighbors r c,
            (u ∈ vars ∧ alookup a u = none ∧ u ≠ v) ∧ x = u := by
    intro r s0 x
    refine mem_foldl_step _
      (fun c x =>
        (0 < gridAt g r c ∧ v ∈ getNeighbors r c) ∧
          ∃ u ∈ getNeighbors r c,
            (u ∈ vars ∧ alookup a u = none ∧ u ≠ v) ∧ x = u)
      ?_ _ s0 x
    intro s b y
    split_ifs with hc
    · rw [hN r b s y]
      constructor
      · rintro (hy | hq)
        · exact Or.inl hy
        · exact Or.inr ⟨hc, hq⟩
      · rintro (hy | ⟨_, hq⟩)
        · exact Or.inl hy
        · exact Or.inr hq
    · constructor
      · exact Or.inl
      · rintro (hy | ⟨hcond, _⟩)
        · exact hy
        · exact absurd hcond hc
  have h4 : ∀ (s0 : Finset Var) (x : Var),
      x ∈ (List.range 9).foldl (fun s r => (List.range 9).foldl (fun s c =>
        if 0 < gridAt g r c ∧ v ∈ getNeighbors r c then
          (getNeighbors r c).foldl (fun s u =>
            if u ∈ vars ∧ alookup a u = none ∧ u ≠ v then insert u s
            else s) s
        else s) s) s0 ↔
      x ∈ s0 ∨ ∃ r ∈ List.range 9, ∃ c ∈ List.range 9,
        (0 < gridAt g r c ∧ v ∈ getNeighbors r c) ∧
          ∃ u ∈ getNeighbors r c,
            (u ∈ vars ∧ alookup a u = none ∧ u ≠ v) ∧ x = u := by
    intro s0 x
    refine mem_foldl_step _
      (fun r x =>
        ∃ c ∈ List.range 9,
          (0 < gridAt g r c ∧ v ∈ getNeighbors r c) ∧
            ∃ u ∈ getNeighbors r c,
              (u ∈ vars ∧ alookup a u = none ∧ u ≠ v) ∧ x = u)
      ?_ _ s0 x
    intro s b y
    exact hC b s y
  ext x
  unfold countConstraintsSet
  rw [h4, h3, h2, h1]
  simp only [Finset.not_mem_empty, false_or, Finset.mem_filter,
    List.mem_toFinset, List.mem_range, sharesConstraint, Finset.mem_range]
  constructor
  · rintro (((⟨c, hc, ⟨hm, hn, hne⟩, rfl⟩ | ⟨r, hr, ⟨hm, hn, hne⟩, rfl⟩) |
        ⟨u, hu, ⟨hm, hn, hne⟩, rfl⟩) |
      ⟨r, hr, c, hc, ⟨hg, hvn⟩, u, hu, ⟨hm, hn, hne⟩, rfl⟩)
    · exact ⟨hm, hn, hne, Or.inl rfl⟩
    · exact ⟨hm, hn, hne, Or.inr (Or.inl rfl)⟩
    · rw [mem_blockCells] at hu
      exact ⟨hm, hn, hne, Or.inr (Or.inr (Or.inl ⟨hu.1.symm, hu.2.symm⟩))⟩
    · exact ⟨hm, hn, hne,
        Or.inr (Or.inr (Or.inr ⟨r, hr, c, hc, hg, hvn, hu⟩))⟩
  · rintro ⟨hm, hn, hne, (hshares | hshares | ⟨hq1, hq2⟩ |
      ⟨r, hr, c, hc, hg, hvn, hxn⟩)⟩
    · have hx : ((v.1, x.2) : Var) = x := by rw [hshares]
      refine Or.inl (Or.inl (Or.inl ⟨x.2, (hb x hm).2, ?_, hx.symm⟩))
      rw [hx]
      exact ⟨hm, hn, hne⟩
    · have hx : ((x.1, v.2) : Var) = x := by rw [hshares]
      refine Or.inl (Or.inl (Or.inr ⟨x.1, (hb x hm).1, ?_, hx.symm⟩))
      rw [hx]
      exact ⟨hm, hn, hne⟩
    · refine Or.inl (Or.inr ⟨x, ?_, ⟨hm, hn, hne⟩, rfl⟩)
      rw [mem_blockCells]
      exact ⟨hq1.symm, hq2.symm⟩
    · exact Or.inr ⟨r, hr, c, hc, ⟨hg, hvn⟩, x, hxn, ⟨hm, hn, hne⟩, rfl⟩

/-- The degree of `count_constraints` equals the deduplicated count of
other unassigned variables constrained together with the candidate. -/
theorem countConstraints_eq_card (g : Grid) (vars : List Var) (v : Var)
    (a : Assign) (hb : ∀ w ∈ vars, w.1 < 9 ∧ w.2 < 9) :
    countConstraints g vars v a =
      (vars.toFinset.filter
        (fun w => alookup a w = none ∧ w ≠ v ∧
          sharesConstraint g v w)).card := by
  unfold countConstraints
  rw [countConstraintsSet_eq g vars v a hb]

/-! ### Variable-selection lemmas -/

theorem foldl_min_spec {β : Type} (f : β → Nat) :
    ∀ (l : List β) (acc : Nat),
      (l.foldl (fun m w => min m (f w)) acc ≤ acc) ∧
      (∀ w ∈ l, l.foldl (fun m w => min m (f w)) acc ≤ f w) ∧
      (l.foldl (fun m w => min m (f w)) acc = acc ∨
        ∃ w ∈ l, l.foldl (fun m w => min m (f w)) acc = f w) := by
  intro l
  induction l with
  | nil => simp
  | cons b rest ih =>
    intro acc
    rw [List.foldl_cons]
    obtain ⟨hle, hall, hatt⟩ := ih (min acc (f b))
    refine ⟨le_trans hle (min_le_left _ _), ?_, ?_⟩
    · intro w hw
      rcases List.mem_cons.1 hw with rfl | hw2
      · exact le_trans hle (min_le_right _ _)
      · exact hall w hw2
    · rcases hatt with heq | ⟨w, hw, heq⟩
      · rcases min_choice acc (f b) with h | h
        · exact Or.inl (heq.trans h)
        · exact Or.inr ⟨b, List.mem_cons_self b rest, heq.trans h⟩
      · exact Or.inr ⟨w, List.mem_cons_of_mem _ hw, heq⟩

theorem foldl_argmax_spec {β : Type} (deg : β → Int) :
    ∀ (l : List β) (p : Option β × Int),
      (∀ u ∈ l,
        deg u ≤ (l.foldl (fun p v =>
          if deg v > p.2 then (some v, deg v) else p) p).2) ∧
      ((l.foldl (fun p v => if deg v > p.2 then (some v, deg v) else p) p)
          = p ∨
        ∃ v ∈ l,
          (l.foldl (fun p v =>
            if deg v > p.2 then (some v, deg v) else p) p).1 = some v ∧
          (l.foldl (fun p v =>
            if deg v > p.2 then (some v, deg v) else p) p).2 = deg v) ∧
      p.2 ≤ (l.foldl (fun p v =>
        if deg v > p.2 then (some v, deg v) else p) p).2 := by
  intro l
  induction l with
  | nil => simp
  | cons b rest ih =>
    intro p
    rw [List.foldl_cons]
    obtain ⟨hall, hatt, hmono⟩ :=
      ih (if deg b > p.2 then (some b, deg b) else p)
    have hq2 : p.2 ≤ (if deg b > p.2 then (some b, deg b) else p).2 := by
      split_ifs with h
      · exact le_of_lt h
      · exact le_refl _
    have hdb : deg b ≤ (if deg b > p.2 then (some b, deg b) else p).2 := by
      split_ifs with h
      · exact le_refl _
      · exact le_of_not_lt h
    refine ⟨?_, ?_, le_trans hq2 hmono⟩
    · intro u hu
      rcases List.mem_cons.1 hu with rfl | hu2
      · exact le_trans hdb hmono
      · exact hall u hu2
    · rcases hatt with heq | ⟨v, hv, h1, h2⟩
      · rw [heq]
        split_ifs with h
        · exact Or.inr ⟨b, List.mem_cons_self b rest, rfl, rfl⟩
        · exact Or.inl rfl
      · exact Or.inr ⟨v, List.mem_cons_of_mem _ hv, h1, h2⟩

/-- Worker lemma for the variable-ordering heuristic: the `None` case,
membership, minimality of domain size, and maximality of degree. -/
theorem selectSpecAux (g : Grid) (vars : List Var)
    (d : Domains) (a : Assign) (hb : ∀ w ∈ vars, w.1 < 9 ∧ w.2 < 9) :
    (selectUnassignedVariable g vars d a = none ↔
      ∀ v ∈ vars, (alookup a v).isSome = true) ∧
    ∀ v, selectUnassignedVariable g vars d a = some v →
      v ∈ vars ∧ alookup a v = none ∧
      (∀ u ∈ vars, alookup a u = none → (d v).card ≤ (d u).card) ∧
      (∀ u ∈ vars, alookup a u = none → (d u).card = (d v).card →
        (vars.toFinset.filter (fun w => alookup a w = none ∧ w ≠ u ∧
          sharesConstraint g u w)).card ≤
        (vars.toFinset.filter (fun w => alookup a w = none ∧ w ≠ v ∧
          sharesConstraint g v w)).card) := by
  rcases hU : vars.filter (fun v => (alookup a v).isNone) with _ | ⟨u, us⟩
  · have hsel : selectUnassignedVariable g vars d a = none := by
      simp [selectUnassignedVariable, hU]
    have hall : ∀ v ∈ vars, (alookup a v).isSome = true := by
      intro v hv
      by_contra hns
      have hnone : (alookup a v).isNone = true := by
        rcases h : alookup a v with _ | x
        · rfl
        · rw [h] at hns; exact absurd rfl hns
      have : v ∈ vars.filter (fun v => (alookup a v).isNone) :=
        List.mem_filter.2 ⟨hv, hnone⟩
      rw [hU] at this
      exact absurd this (List.not_mem_nil v)
    refine ⟨⟨fun _ => hall, fun _ => hsel⟩, ?_⟩
    intro v hv
    rw [hsel] at hv
    exact Option.noConfusion hv
  · have hmem : ∀ w, w ∈ u :: us ↔ w ∈ vars ∧ alookup a w = none := by
      intro w
      rw [← hU, List.mem_filter, Option.isNone_iff_eq_none]
    have hmemu := (hmem u).1 (List.mem_cons_self u us)
    obtain ⟨hmin_le_acc, hmin_all, hmin_att⟩ :=
      foldl_min_spec (fun w => (d w).card) us ((d u).card)
    set minSize := us.foldl (fun m w => min m ((d w).card)) ((d u).card)
      with hminSize
    have hminLB : ∀ w ∈ u :: us, minSize ≤ (d w).card := by
      intro w hw
      rcases List.mem_cons.1 hw with rfl | hw2
      · exact hmin_le_acc
      · exact hmin_all w hw2
    have hminAtt : ∃ w ∈ u :: us, (d w).card = minSize := by
      rcases hmin_att with heq | ⟨w, hw, heq⟩
      · exact ⟨u, List.mem_cons_self u us, heq.symm⟩
      · exact ⟨w, List.mem_cons_of_mem _ hw, heq.symm⟩
    set mrvVars := (u :: us).filter (fun v => (d v).card = minSize)
      with hmrv
    have hmrvMem : ∀ w, w ∈ mrvVars ↔ w ∈ u :: us ∧ (d w).card = minSize := by
      intro w
      rw [hmrv, List.mem_filter]
      simp
    have hmrvNe : mrvVars ≠ [] := by
      obtain ⟨w, hw, hweq⟩ := hminAtt
      intro hnil
      have := (hmrvMem w).2 ⟨hw, hweq⟩
      rw [hnil] at this
      exact absurd this (List.not_mem_nil w)
    have hcommon : ∀ v, v ∈ mrvVars →
        v ∈ vars ∧ alookup a v = none ∧
        (∀ w ∈ vars, alookup a w = none → (d v).card ≤ (d w).card) := by
      intro v hv
      obtain ⟨hv1, hv2⟩ := (hmrvMem v).1 hv
      obtain ⟨hv3, hv4⟩ := (hmem v).1 hv1
      refine ⟨hv3, hv4, ?_⟩
      intro w hw hwn
      rw [hv2]
      exact hminLB w ((hmem w).2 ⟨hw, hwn⟩)
    have htie : ∀ v, v ∈ mrvVars →
        (∀ w ∈ mrvVars,
          countConstraints g vars w a ≤ countConstraints g vars v a) →
        (∀ w ∈ vars, alookup a w = none → (d w).card = (d v).card →
          (vars.toFinset.filter (fun x => alookup a x = none ∧ x ≠ w ∧
            sharesConstraint g w x)).card ≤
          (vars.toFinset.filter (fun x => alookup a x = none ∧ x ≠ v ∧
            sharesConstraint g v x)).card) := by
      intro v hv hmax w hw hwn hwcard
      have hvsize := ((hmrvMem v).1 hv).2
      have hwmrv : w ∈ mrvVars := by
        refine (hmrvMem w).2 ⟨(hmem w).2 ⟨hw, hwn⟩, ?_⟩
        rw [hwcard, hvsize]
      have := hmax w hwmrv
      rwa [countConstraints_eq_card g vars w a hb,
        countConstraints_eq_card g vars v a hb] at this
    by_cases hlen : mrvVars.length = 1
    · rcases hmrvL : mrvVars with _ | ⟨v0, vs⟩
      · rw [hmrvL] at hmrvNe; exact absurd rfl hmrvNe
      · have hvs : vs = [] := by
          rw [hmrvL] at hlen
          simpa using hlen
        subst hvs
        have hsel : selectUnassignedVariable g vars d a = some v0 := by
          simp only [selectUnassignedVariable, hU]
          rw [← hminSize, ← hmrv, hmrvL]
          rfl
        have hv0 : v0 ∈ mrvVars := by rw [hmrvL]; exact List.mem_cons_self _ _
        constructor
        · rw [hsel]
          constructor
          · intro h; exact Option.noConfusion h
          · intro h
            have := h u hmemu.1
            rw [hmemu.2] at this
            simp at this
        · intro v hv
          rw [hsel] at hv
          obtain rfl : v0 = v := by simpa using hv
          obtain ⟨h1, h2, h3⟩ := hcommon v0 hv0
          refine ⟨h1, h2, h3, ?_⟩
          refine htie v0 hv0 ?_
          intro w hw
          rw [hmrvL] at hw
          obtain rfl : w = v0 := by simpa using hw
          exact le_refl _
    · obtain ⟨hdall, hdatt, _⟩ :=
        foldl_argmax_spec (fun v => (countConstraints g vars v a : Int))
          mrvVars ((none : Option Var), (-1 : Int))
      have hres : ∃ v ∈ mrvVars,
          (mrvVars.foldl (fun p v =>
            if (countConstraints g vars v a : Int) > p.2 then
              (some v, (countConstraints g vars v a : Int)) else p)
            ((none : Option Var), (-1 : Int))).1 = some v ∧
          (mrvVars.foldl (fun p v =>
            if (countConstraints g vars v a : Int) > p.2 then
              (some v, (countConstraints g vars v a : Int)) else p)
            ((none : Option Var), (-1 : Int))).2 =
            (countConstraints g vars v a : Int) := by
        rcases hdatt with heq | hex
        · exfalso
          rcases hmrvL : mrvVars with _ | ⟨w0, ws⟩
          · rw [hmrvL] at hmrvNe; exact absurd rfl hmrvNe
          · have hw0 := hdall w0 (by rw [hmrvL]; exact List.mem_cons_self _ _)
            rw [heq] at hw0
            have : (0 : Int) ≤ (countConstraints g vars w0 a : Int) :=
              Int.ofNat_nonneg _
            omega
        · exact hex
      obtain ⟨v0, hv0, hres1, hres2⟩ := hres
      have hsel : selectUnassignedVariable g vars d a = some v0 := by
        simp only [selectUnassignedVariable, hU]
        rw [← hminSize, ← hmrv]
        rw [if_neg hlen]
        exact hres1
      constructor
      · rw [hsel]
        constructor
        · intro h; exact Option.noConfusion h
        · intro h
          have := h u hmemu.1
          rw [hmemu.2] at this
          simp at this
      · intro v hv
        rw [hsel] at hv
        obtain rfl : v0 = v := by simpa using hv
        obtain ⟨h1, h2, h3⟩ := hcommon v0 hv0
        refine ⟨h1, h2, h3, ?_⟩
        refine htie v0 hv0 ?_
        intro w hw
        have := hdall w hw
        rw [hres2] at this
        exact_mod_cast this

/-- C9: `select_unassigned_variable` returns `None` exactly when every
variable is assigned; otherwise it returns an unassigned variable of
minimal current domain size whose degree — the deduplicated set-based
count of other unassigned variables sharing a row, column, block, or
clue neighborhood with it — is maximal among the minimal-domain
candidates. -/
theorem selectUnassignedVariable_spec (g : Grid) (vars : List Var)
    (d : Domains) (a : Assign) (hb : ∀ w ∈ vars, w.1 < 9 ∧ w.2 < 9) :
    (selectUnassignedVariable g vars d a = none ↔
      ∀ v ∈ vars, (alookup a v).isSome = true) ∧
    ∀ v, selectUnassignedVariable g vars d a = some v →
      v ∈ vars ∧ alookup a v = none ∧
      (∀ u ∈ vars, alookup a u = none → (d v).card ≤ (d u).card) ∧
      (∀ u ∈ vars, alookup a u = none → (d u).card = (d v).card →
        (vars.toFinset.filter (fun w => alookup a w = none ∧ w ≠ u ∧
          sharesConstraint g u w)).card ≤
        (vars.toFinset.filter (fun w => alookup a w = none ∧ w ≠ v ∧
          sharesConstraint g v w)).card) :=
  selectSpecAux g vars d a hb

/-- Witness for C9: on the small satisfiable grid with the empty
assignment, the heuristic selects (0,0), which is unassigned, of minimal
domain size, and of maximal degree. -/
theorem selectUnassignedVariable_spec_witness :
    selectUnassignedVariable gridSmall varsSmall (initDomains varsSmall)
        [] = some (0, 0) ∧
      (0, 0) ∈ varsSmall ∧ alookup [] (0, 0) = none := by
  have h := (selectUnassignedVariable_spec gridSmall varsSmall
    (initDomains varsSmall) [] (by decide)).2 (0, 0) (by decide)
  exact ⟨by decide, h.1, h.2.1⟩

/-! ### Search driver lemmas -/

theorem attemptVal_cases (g : Grid) (vars : List Var)
    (bt : Assign → SearchState → Option Assign × SearchState)
    (var : Var) (val : Nat) (a : Assign) (st : SearchState) :
    (∃ st2, attemptVal g vars bt var val a st = Sum.inr st2 ∧
      st2.goalDepth = st.goalDepth ∧ st2.nodes = st.nodes ∧
      st2.trace = st.trace) ∨
    (∃ stIn, stIn.goalDepth = st.goalDepth ∧ stIn.nodes = st.nodes ∧
      stIn.trace = st.trace ∧ isConsistent g vars var val a = true ∧
      ((∃ A st3, bt (dictInsert a var val) stIn = (some A, st3) ∧
          attemptVal g vars bt var val a st = Sum.inl (some A, st3)) ∨
        (∃ st3 rm, bt (dictInsert a var val) stIn = (none, st3) ∧
          attemptVal g vars bt var val a st = Sum.inr
            { st3 with domains := restoreDomains st3.domains rm }))) := by
  unfold attemptVal
  by_cases hdom : val ∈ st.domains var
  · rw [if_pos hdom]
    by_cases hcons : isConsistent g vars var val a = true
    · rw [if_pos hcons]
      rcases hfc : forwardCheck g vars var val (dictInsert a var val)
          st.domains with ⟨ores, d2⟩
      simp only [hfc]
      cases ores with
      | none =>
        exact Or.inl ⟨{ st with domains := d2 }, rfl, rfl, rfl, rfl⟩
      | some removed =>
        refine Or.inr ⟨{ st with domains := d2 }, rfl, rfl, rfl, hcons, ?_⟩
        rcases hbt : bt (dictInsert a var val) { st with domains := d2 }
            with ⟨ores2, st3⟩
        simp only [hbt]
        cases ores2 with
        | some A => exact Or.inl ⟨A, st3, rfl, rfl⟩
        | none => exact Or.inr ⟨st3, removed, rfl, rfl⟩
    · rw [if_neg hcons]
      exact Or.inl ⟨st, rfl, rfl, rfl, rfl⟩
  · rw [if_neg hdom]
    exact Or.inl ⟨st, rfl, rfl, rfl, rfl⟩

theorem assign_length_le (vars : List Var) (a : Assign)
    (hnd : (keysOf a).Nodup) (hsub : ∀ k ∈ keysOf a, k ∈ vars) :
    a.length ≤ vars.length := by
  have h1 : (keysOf a).length = a.length := List.length_map a Prod.fst
  calc a.length = (keysOf a).length := h1.symm
    _ = (keysOf a).toFinset.card := (List.toFinset_card_of_nodup hnd).symm
    _ ≤ vars.toFinset.card := Finset.card_le_card (fun x hx =>
        List.mem_toFinset.2 (hsub x (List.mem_toFinset.1 hx)))
    _ ≤ vars.length := vars.toFinset_card_le

theorem assign_complete (vars : List Var) (hvnd : vars.Nodup) (A : Assign)
    (hnd : (keysOf A).Nodup) (hsub : ∀ k ∈ keysOf A, k ∈ vars)
    (hlen : A.length = vars.length) :
    ∀ v ∈ vars, v ∈ keysOf A := by
  have hkl : (keysOf A).length = A.length := List.length_map A Prod.fst
  have hfin : (keysOf A).toFinset = vars.toFinset := by
    apply Finset.eq_of_subset_of_card_le
    · intro x hx
      exact List.mem_toFinset.2 (hsub x (List.mem_toFinset.1 hx))
    · rw [List.toFinset_card_of_nodup hvnd, List.toFinset_card_of_nodup hnd,
        hkl, hlen]
  intro v hv
  have := List.mem_toFinset.2 hv
  rw [← hfin] at this
  exact List.mem_toFinset.1 this

/-- Statistics and completeness invariant of `backtrack`: on failure the
goal depth is untouched and the trace grows by one entry per invocation,
each matched by exactly one increment of the node counter; on success
the returned assignment is a complete duplicate-free assignment of all
variables, the recorded goal depth is the entry depth plus the number of
newly bound variables, and the trace (again matching the node counter
exactly) has at least one entry per depth level descended plus the
terminal call. -/
theorem backtrack_stats (g : Grid) (vars : List Var) (hvnd : vars.Nodup)
    (hb : ∀ w ∈ vars, w.1 < 9 ∧ w.2 < 9) :
    ∀ (fuel : Nat) (st : SearchState) (a : Assign) (depth : Nat),
      (keysOf a).Nodup → (∀ k ∈ keysOf a, k ∈ vars) →
      (∀ st2, backtrack g vars fuel st a depth = (none, st2) →
        st2.goalDepth = st.goalDepth ∧
        ∃ t : List Nat, st2.trace = st.trace ++ t ∧
          st2.nodes = st.nodes + t.length ∧ (fuel ≠ 0 → 1 ≤ t.length)) ∧
      (∀ A st2, backtrack g vars fuel st a depth = (some A, st2) →
        (keysOf A).Nodup ∧ (∀ k ∈ keysOf A, k ∈ vars) ∧
        A.length = vars.length ∧
        st2.goalDepth = depth + (vars.length - a.length) ∧
        ∃ t : List Nat, st2.trace = st.trace ++ t ∧
          st2.nodes = st.nodes + t.length ∧
          vars.length - a.length + 1 ≤ t.length) := by
  intro fuel
  induction fuel with
  | zero =>
    intro st a depth hnd hsub
    constructor
    · intro st2 hres
      simp only [backtrack, Prod.mk.injEq] at hres
      refine ⟨by rw [← hres.2], [], by rw [← hres.2]; simp,
        by rw [← hres.2]; simp, fun h => absurd rfl h⟩
    · intro A st2 hres
      simp only [backtrack, Prod.mk.injEq] at hres
      exact absurd hres.1 (by simp)
  | succ fuel ih =>
    intro st a depth hnd hsub
    have hbody : backtrack g vars (fuel + 1) st a depth =
        (if a.length = vars.length then
          (some a, { st with nodes := st.nodes + 1, trace := st.trace ++ [depth], goalDepth := depth })
        else
          match selectUnassignedVariable g vars ({ st with nodes := st.nodes + 1, trace := st.trace ++ [depth] } : SearchState).domains a with
          | none => (none, { st with nodes := st.nodes + 1, trace := st.trace ++ [depth] })
          | some var =>
            match attemptVal g vars
                (fun a2 s2 => backtrack g vars fuel s2 a2 (depth + 1))
                var 0 a { st with nodes := st.nodes + 1, trace := st.trace ++ [depth] } with
            | Sum.inl r => r
            | Sum.inr st2 =>
              match attemptVal g vars
                  (fun a2 s2 => backtrack g vars fuel s2 a2 (depth + 1))
                  var 1 a st2 with
              | Sum.inl r => r
              | Sum.inr st3 => (none, st3)) := rfl
    by_cases hcomp : a.length = vars.length
    · rw [if_pos hcomp] at hbody
      constructor
      · intro st2 hres
        rw [hbody] at hres
        simp only [Prod.mk.injEq] at hres
        exact absurd hres.1 (by simp)
      · intro A st2 hres
        rw [hbody] at hres
        simp only [Prod.mk.injEq] at hres
        obtain ⟨hA, hst2⟩ := hres
        obtain rfl : a = A := by simpa using hA
        refine ⟨hnd, hsub, hcomp, ?_, [depth], ?_, ?_, ?_⟩
        · rw [← hst2, hcomp]
          simp
        · rw [← hst2]
        · rw [← hst2]
          simp
        · rw [hcomp]
          simp
    · rw [if_neg hcomp] at hbody
      rcases hsel : selectUnassignedVariable g vars ({ st with nodes := st.nodes + 1, trace := st.trace ++ [depth] } : SearchState).domains a with
        _ | var
      · rw [hsel] at hbody
        constructor
        · intro st2 hres
          rw [hbody] at hres
          simp only [Prod.mk.injEq] at hres
          refine ⟨by rw [← hres.2], [depth], by rw [← hres.2],
            by rw [← hres.2]; simp, fun _ => by simp⟩
        · intro A st2 hres
          rw [hbody] at hres
          simp only [Prod.mk.injEq] at hres
          exact absurd hres.1 (by simp)
      · rw [hsel] at hbody
        obtain ⟨hvmem, hvnone, -, -⟩ :=
          (selectSpecAux g vars _ a hb).2 var hsel
        have hvkey : var ∉ keysOf a := (alookup_eq_none_iff a var).1 hvnone
        have hinsv : ∀ val : Nat, dictInsert a var val = (var, val) :: a :=
          fun val => dictInsert_of_lookup_none a var val hvnone
        have hnd1 : ∀ val : Nat, (keysOf ((var, val) :: a)).Nodup := by
          intro val
          simp only [keysOf, List.map_cons, List.nodup_cons]
          exact ⟨hvkey, hnd⟩
        have hsub1 : ∀ (val : Nat), ∀ k ∈ keysOf ((var, val) :: a),
            k ∈ vars := by
          intro val k hk
          simp only [keysOf, List.map_cons, List.mem_cons] at hk
          rcases hk with rfl | hk
          · exact hvmem
          · exact hsub k hk
        have halen : a.length < vars.length :=
          lt_of_le_of_ne (assign_length_le vars a hnd hsub) hcomp
        have hstep : ∀ (val : Nat) (stA : SearchState) (tA : List Nat),
            stA.goalDepth = st.goalDepth →
            stA.trace = st.trace ++ tA →
            stA.nodes = st.nodes + tA.length →
            (∃ st2 t2, attemptVal g vars
                (fun a2 s2 => backtrack g vars fuel s2 a2 (depth + 1))
                var val a stA = Sum.inr st2 ∧
              st2.goalDepth = st.goalDepth ∧
              st2.trace = st.trace ++ (tA ++ t2) ∧
              st2.nodes = st.nodes + (tA ++ t2).length) ∨
            (∃ A st2 t2, attemptVal g vars
                (fun a2 s2 => backtrack g vars fuel s2 a2 (depth + 1))
                var val a stA = Sum.inl (some A, st2) ∧
              (keysOf A).Nodup ∧ (∀ k ∈ keysOf A, k ∈ vars) ∧
              A.length = vars.length ∧
              st2.goalDepth = depth + (vars.length - a.length) ∧
              st2.trace = st.trace ++ (tA ++ t2) ∧
              st2.nodes = st.nodes + (tA ++ t2).length ∧
              vars.length - a.length + tA.length ≤ (tA ++ t2).length) := by
          intro val stA tA hgdA htrA hndA
          rcases attemptVal_cases g vars
              (fun a2 s2 => backtrack g vars fuel s2 a2 (depth + 1))
              var val a stA with
            ⟨st2, heq, hgd2, hnodes2, htrace2⟩ |
            ⟨stIn, hgdIn, hnodesIn, htraceIn, hcons, hrest⟩
          · refine Or.inl ⟨st2, [], heq, by rw [hgd2, hgdA], ?_, ?_⟩
            · rw [htrace2, htrA, List.append_nil]
            · rw [hnodes2, hndA, List.append_nil]
          · have hbt := ih stIn ((var, val) :: a) (depth + 1) (hnd1 val)
              (hsub1 val)
            rcases hrest with ⟨A, st3, hbtres, heq⟩ | ⟨st3, rm, hbtres, heq⟩
            · rw [hinsv val] at hbtres
              obtain ⟨hndA2, hsubA2, hlenA2, hgd3, t3, htr3, hnd3,
                hbound3⟩ := hbt.2 A st3 hbtres
              refine Or.inr ⟨A, st3, t3, heq, hndA2, hsubA2, hlenA2,
                ?_, ?_, ?_, ?_⟩
              · rw [hgd3]
                simp only [List.length_cons]
                omega
              · rw [htr3, htraceIn, htrA, List.append_assoc]
              · rw [hnd3, hnodesIn, hndA, List.length_append]
                omega
              · simp only [List.length_cons] at hbound3
                rw [List.length_append]
                omega
            · rw [hinsv val] at hbtres
              obtain ⟨hgd3, t3, htr3, hnd3, -⟩ := hbt.1 st3 hbtres
              refine Or.inl ⟨_, t3, heq, ?_, ?_, ?_⟩
              · show st3.goalDepth = st.goalDepth
                rw [hgd3, hgdIn, hgdA]
              · show st3.trace = st.trace ++ (tA ++ t3)
                rw [htr3, htraceIn, htrA, List.append_assoc]
              · show st3.nodes = st.nodes + (tA ++ t3).length
                rw [hnd3, hnodesIn, hndA, List.length_append]
                omega
        have hst1gd : ({ st with nodes := st.nodes + 1, trace := st.trace ++ [depth] } : SearchState).goalDepth = st.goalDepth := rfl
        rcases hstep 0 _ [depth] hst1gd rfl rfl with
          ⟨st2, t2, heq0, hgd2, htr2, hnd2⟩ |
          ⟨A, st2, t2, heq0, hA1, hA2, hA3, hgd2, htr2, hnd2, hbound2⟩
        · rcases hstep 1 st2 ([depth] ++ t2) hgd2 htr2 hnd2 with
            ⟨st3, t3, heq1, hgd3, htr3, hnd3⟩ |
            ⟨A, st3, t3, heq1, hA1, hA2, hA3, hgd3, htr3, hnd3, hbound3⟩
          · have hres : backtrack g vars (fuel + 1) st a depth =
                (none, st3) := by
              rw [hbody]
              simp only [heq0, heq1]
            constructor
            · intro st2' hres'
              rw [hres] at hres'
              have h2 : st3 = st2' := congrArg Prod.snd hres'
              subst h2
              refine ⟨hgd3, [depth] ++ t2 ++ t3, htr3, hnd3,
                fun _ => by simp⟩
            · intro A st2' hres'
              rw [hres] at hres'
              exact absurd (congrArg Prod.fst hres') (by simp)
          · have hres : backtrack g vars (fuel + 1) st a depth =
                (some A, st3) := by
              rw [hbody]
              simp only [heq0, heq1]
            constructor
            · intro st2' hres'
              rw [hres] at hres'
              exact absurd (congrArg Prod.fst hres') (by simp)
            · intro A' st2' hres'
              rw [hres] at hres'
              have h1 : A = A' := Option.some.inj (congrArg Prod.fst hres')
              have h2 : st3 = st2' := congrArg Prod.snd hres'
              subst h1
              subst h2
              refine ⟨hA1, hA2, hA3, hgd3, [depth] ++ t2 ++ t3, htr3, hnd3,
                ?_⟩
              simp only [List.length_append, List.length_singleton]
                at hbound3 ⊢
              omega
        · have hres : backtrack g vars (fuel + 1) st a depth =
              (some A, st2) := by
            rw [hbody]
            simp only [heq0]
          constructor
          · intro st2' hres'
            rw [hres] at hres'
            exact absurd (congrArg Prod.fst hres') (by simp)
          · intro A' st2' hres'
            rw [hres] at hres'
            have h1 : A = A' := Option.some.inj (congrArg Prod.fst hres')
            have h2 : st2 = st2' := congrArg Prod.snd hres'
            subst h1
            subst h2
            refine ⟨hA1, hA2, hA3, hgd2, [depth] ++ t2, htr2, hnd2, ?_⟩
            simp only [List.length_append, List.length_singleton]
              at hbound2 ⊢
            omega

theorem backtrack_succ_unfold (g : Grid) (vars : List Var) (fuel : Nat)
    (st : SearchState) (a : Assign) (depth : Nat) :
    backtrack g vars (fuel + 1) st a depth =
      (if a.length = vars.length then
        (some a, { st with nodes := st.nodes + 1, trace := st.trace ++ [depth], goalDepth := depth })
      else
        match selectUnassignedVariable g vars st.domains a with
        | none => (none, { st with nodes := st.nodes + 1, trace := st.trace ++ [depth] })
        | some var =>
          match attemptVal g vars
              (fun a2 s2 => backtrack g vars fuel s2 a2 (depth + 1))
              var 0 a { st with nodes := st.nodes + 1, trace := st.trace ++ [depth] } with
          | Sum.inl r => r
          | Sum.inr st2 =>
            match attemptVal g vars
                (fun a2 s2 => backtrack g vars fuel s2 a2 (depth + 1))
                var 1 a st2 with
            | Sum.inl r => r
            | Sum.inr st3 => (none, st3)) := rfl

theorem backtrack_complete_eq (g : Grid) (vars : List Var) (fuel : Nat)
    (st : SearchState) (a : Assign) (depth : Nat) (A : Assign)
    (st2 : SearchState)
    (h : backtrack g vars fuel st a depth = (some A, st2))
    (hlen : a.length = vars.length) : A = a := by
  cases fuel with
  | zero =>
    simp only [backtrack] at h
    exact absurd (congrArg Prod.fst h) (by simp)
  | succ fuel =>
    rw [backtrack_succ_unfold, if_pos hlen] at h
    exact (Option.some.inj (congrArg Prod.fst h)).symm

/-- Any invariant of assignments that is established or preserved by
every consistent fresh binding holds for every assignment the search
returns. -/
theorem backtrack_preserves (g : Grid) (vars : List Var)
    (hb : ∀ w ∈ vars, w.1 < 9 ∧ w.2 < 9) (Inv : Assign → Prop)
    (hpres : ∀ (a : Assign) (v : Var) (val : Nat), v ∈ vars →
      alookup a v = none → isConsistent g vars v val a = true → Inv a →
      Inv ((v, val) :: a)) :
    ∀ (fuel : Nat) (st : SearchState) (a : Assign) (depth : Nat)
      (A : Assign) (st2 : SearchState), Inv a →
      backtrack g vars fuel st a depth = (some A, st2) → Inv A := by
  intro fuel
  induction fuel with
  | zero =>
    intro st a depth A st2 _ h
    simp only [backtrack] at h
    exact absurd (congrArg Prod.fst h) (by simp)
  | succ fuel ih =>
    intro st a depth A st2 hInv h
    by_cases hcomp : a.length = vars.length
    · rw [backtrack_complete_eq g vars (fuel + 1) st a depth A st2 h hcomp]
      exact hInv
    · rw [backtrack_succ_unfold, if_neg hcomp] at h
      rcases hsel : selectUnassignedVariable g vars st.domains a with
        _ | var
      · simp only [hsel] at h
        exact absurd (congrArg Prod.fst h) (by simp)
      · simp only [hsel] at h
        obtain ⟨hvmem, hvnone, -, -⟩ :=
          (selectSpecAux g vars st.domains a hb).2 var hsel
        have hinsv : ∀ val : Nat, dictInsert a var val = (var, val) :: a :=
          fun val => dictInsert_of_lookup_none a var val hvnone
        have hattempt1 : ∀ stX : SearchState,
            (match attemptVal g vars
                (fun a2 s2 => backtrack g vars fuel s2 a2 (depth + 1))
                var 1 a stX with
              | Sum.inl r => r
              | Sum.inr st3 => ((none : Option Assign), st3)) =
              (some A, st2) → Inv A := by
          intro stX hX
          rcases attemptVal_cases g vars
              (fun a2 s2 => backtrack g vars fuel s2 a2 (depth + 1))
              var 1 a stX with
            ⟨st3, heq1, -, -, -⟩ | ⟨stIn, -, -, -, hcons1, hrest1⟩
          · simp only [heq1] at hX
            exact absurd (congrArg Prod.fst hX) (by simp)
          · rcases hrest1 with ⟨A1, st31, hbt1, heq1⟩ |
              ⟨st31, rm1, hbt1, heq1⟩
            · simp only [heq1] at hX
              obtain rfl : A1 = A :=
                Option.some.inj (congrArg Prod.fst hX)
              rw [hinsv 1] at hbt1
              exact ih stIn ((var, 1) :: a) (depth + 1) A1 st31
                (hpres a var 1 hvmem hvnone hcons1 hInv) hbt1
            · simp only [heq1] at hX
              exact absurd (congrArg Prod.fst hX) (by simp)
        rcases attemptVal_cases g vars
            (fun a2 s2 => backtrack g vars fuel s2 a2 (depth + 1))
            var 0 a { st with nodes := st.nodes + 1, trace := st.trace ++ [depth] } with
          ⟨st20, heq0, -, -, -⟩ | ⟨stIn, -, -, -, hcons0, hrest0⟩
        · simp only [heq0] at h
          exact hattempt1 st20 h
        · rcases hrest0 with ⟨A0, st30, hbt0, heq0⟩ |
            ⟨st30, rm0, hbt0, heq0⟩
          · simp only [heq0] at h
            obtain rfl : A0 = A :=
              Option.some.inj (congrArg Prod.fst h)
            rw [hinsv 0] at hbt0
            exact ih stIn ((var, 0) :: a) (depth + 1) A0 st30
              (hpres a var 0 hvmem hvnone hcons0 hInv) hbt0
          · simp only [heq0] at h
            exact hattempt1 _ h

/-- Every successful search starting from an incomplete assignment ends
through a final binding that passed `is_consistent` on the full returned
assignment. -/
theorem backtrack_last_check (g : Grid) (vars : List Var)
    (hb : ∀ w ∈ vars, w.1 < 9 ∧ w.2 < 9) :
    ∀ (fuel : Nat) (st : SearchState) (a : Assign) (depth : Nat)
      (A : Assign) (st2 : SearchState), a.length ≠ vars.length →
      backtrack g vars fuel st a depth = (some A, st2) →
      ∃ (v : Var) (val : Nat) (b : Assign), v ∈ vars ∧
        alookup b v = none ∧ isConsistent g vars v val b = true ∧
        A = dictInsert b v val := by
  intro fuel
  induction fuel with
  | zero =>
    intro st a depth A st2 _ h
    simp only [backtrack] at h
    exact absurd (congrArg Prod.fst h) (by simp)
  | succ fuel ih =>
    intro st a depth A st2 hcomp h
    rw [backtrack_succ_unfold, if_neg hcomp] at h
    rcases hsel : selectUnassignedVariable g vars st.domains a with
      _ | var
    · simp only [hsel] at h
      exact absurd (congrArg Prod.fst h) (by simp)
    · simp only [hsel] at h
      obtain ⟨hvmem, hvnone, -, -⟩ :=
        (selectSpecAux g vars st.domains a hb).2 var hsel
      have hchild : ∀ (val : Nat) (stIn : SearchState) (A1 : Assign)
          (st31 : SearchState),
          isConsistent g vars var val a = true →
          backtrack g vars fuel stIn (dictInsert a var val) (depth + 1) =
            (some A1, st31) →
          ∃ (v : Var) (valx : Nat) (b : Assign), v ∈ vars ∧
            alookup b v = none ∧ isConsistent g vars v valx b = true ∧
            A1 = dictInsert b v valx := by
        intro val stIn A1 st31 hcons hbt
        by_cases hlen1 : (dictInsert a var val).length = vars.length
        · exact ⟨var, val, a, hvmem, hvnone, hcons,
            backtrack_complete_eq g vars fuel stIn (dictInsert a var val)
              (depth + 1) A1 st31 hbt hlen1⟩
        · exact ih stIn (dictInsert a var val) (depth + 1) A1 st31
            hlen1 hbt
      have hattempt1 : ∀ stX : SearchState,
          (match attemptVal g vars
              (fun a2 s2 => backtrack g vars fuel s2 a2 (depth + 1))
              var 1 a stX with
            | Sum.inl r => r
            | Sum.inr st3 => ((none : Option Assign), st3)) =
            (some A, st2) →
          ∃ (v : Var) (val : Nat) (b : Assign), v ∈ vars ∧
            alookup b v = none ∧ isConsistent g vars v val b = true ∧
            A = dictInsert b v val := by
        intro stX hX
        rcases attemptVal_cases g vars
            (fun a2 s2 => backtrack g vars fuel s2 a2 (depth + 1))
            var 1 a stX with
          ⟨st3, heq1, -, -, -⟩ | ⟨stIn, -, -, -, hcons1, hrest1⟩
        · simp only [heq1] at hX
          exact absurd (congrArg Prod.fst hX) (by simp)
        · rcases hrest1 with ⟨A1, st31, hbt1, heq1⟩ |
            ⟨st31, rm1, hbt1, heq1⟩
          · simp only [heq1] at hX
            obtain rfl : A1 = A := Option.some.inj (congrArg Prod.fst hX)
            exact hchild 1 stIn A1 st31 hcons1 hbt1
          · simp only [heq1] at hX
            exact absurd (congrArg Prod.fst hX) (by simp)
      rcases attemptVal_cases g vars
          (fun a2 s2 => backtrack g vars fuel s2 a2 (depth + 1))
          var 0 a { st with nodes := st.nodes + 1, trace := st.trace ++ [depth] } with
        ⟨st20, heq0, -, -, -⟩ | ⟨stIn, -, -, -, hcons0, hrest0⟩
      · simp only [heq0] at h
        exact hattempt1 st20 h
      · rcases hrest0 with ⟨A0, st30, hbt0, heq0⟩ |
          ⟨st30, rm0, hbt0, heq0⟩
        · simp only [heq0] at h
          obtain rfl : A0 = A := Option.some.inj (congrArg Prod.fst h)
          exact hchild 0 stIn A0 st30 hcons0 hbt0
        · simp only [heq0] at h
          exact hattempt1 _ h

/-! ### Checker interpretation lemmas -/

theorem checkRow_true_iff (vars : List Var) (row : Nat) (a : Assign) :
    checkRowConstraint vars row a = true ↔
      minesRow vars a row ≤ 3 ∧
      (unassignedRow vars a row = 0 → minesRow vars a row = 3) ∧
      3 ≤ minesRow vars a row + unassignedRow vars a row := by
  simp only [checkRowConstraint]
  split_ifs with h1 h2 h3 <;> simp <;> omega

theorem checkCol_true_iff (vars : List Var) (col : Nat) (a : Assign) :
    checkColConstraint vars col a = true ↔
      minesCol a col ≤ 3 ∧
      (assignedCol a col = colVarCount vars col → minesCol a col = 3) := by
  simp only [checkColConstraint]
  split_ifs with h1 h2 <;> simp <;> omega

theorem checkBlock_true_iff (vars : List Var) (row col : Nat) (a : Assign) :
    checkBlockConstraint vars row col a = true ↔
      minesBlock vars a row col ≤ 3 ∧
      3 ≤ minesBlock vars a row col + unknownBlock vars a row col ∧
      (0 < unknownBlock vars a row col ∨ minesBlock vars a row col = 3) := by
  simp only [checkBlockConstraint, decide_eq_true_eq]

theorem nbrCounts_eq (vars : List Var) (a : Assign) (r c : Nat) :
    nbrCounts vars a r c = (minesNbr a r c, unknownNbr vars a r c) := by
  unfold nbrCounts minesNbr unknownNbr
  have haux : ∀ (l : List Var) (m u : Nat),
      l.foldl (fun mu v =>
        match alookup a v with
        | some x => (mu.1 + x, mu.2)
        | none => if v ∈ vars then (mu.1, mu.2 + 1) else mu) (m, u) =
      (m + (l.map (fun v => (alookup a v).getD 0)).sum,
        u + (l.map (fun v =>
          if v ∈ vars ∧ alookup a v = none then 1 else 0)).sum) := by
    intro l
    induction l with
    | nil => intro m u; simp
    | cons v t ih =>
      intro m u
      rw [List.foldl_cons, List.map_cons, List.map_cons, List.sum_cons,
        List.sum_cons]
      rcases hv : alookup a v with _ | x
      · by_cases hmem : v ∈ vars
        · simp [hv, hmem, ih, Prod.ext_iff] <;> omega
        · simp [hv, hmem, ih, Prod.ext_iff] <;> omega
      · simp [hv, ih, Prod.ext_iff] <;> omega
  rw [haux]
  simp

theorem checkNumbered_true_iff (g : Grid) (vars : List Var) (a : Assign) :
    checkNumberedConstraints g vars a = true ↔
      ∀ r, r < 9 → ∀ c, c < 9 → 0 < gridAt g r c →
        ((minesNbr a r c : Int) ≤ gridAt g r c ∧
          (unknownNbr vars a r c = 0 →
            (minesNbr a r c : Int) = gridAt g r c)) := by
  unfold checkNumberedConstraints
  simp only [List.all_eq_true, List.mem_range, nbrCounts_eq]
  constructor
  · intro h r hr c hc hpos
    have := h r hr c hc
    rw [if_neg (by omega)] at this
    by_cases h1 : (minesNbr a r c : Int) > gridAt g r c
    · rw [if_pos h1] at this
      exact absurd this (by simp)
    · rw [if_neg h1] at this
      by_cases h2 : unknownNbr vars a r c = 0 ∧
          (minesNbr a r c : Int) ≠ gridAt g r c
      · rw [if_pos h2] at this
        exact absurd this (by simp)
      · push_neg at h1 h2
        exact ⟨h1, h2⟩
  · intro h r hr c hc
    by_cases hpos : gridAt g r c ≤ 0
    · rw [if_pos hpos]
    · rw [if_neg hpos]
      push_neg at hpos
      obtain ⟨hle, himp⟩ := h r hr c hc hpos
      rw [if_neg (by omega)]
      rw [if_neg]
      push_neg
      intro hu
      exact himp hu

/-! ### Count congruence and completeness lemmas -/

theorem alookup_cons_ne (v : Var) (val : Nat) (a : Assign) (u : Var)
    (h : v ≠ u) : alookup ((v, val) :: a) u = alookup a u := by
  rw [alookup_cons, if_neg h]

theorem minesRow_cons_ne (vars : List Var) (a : Assign) (row : Nat)
    (v : Var) (val : Nat) (h : v.1 ≠ row) :
    minesRow vars ((v, val) :: a) row = minesRow vars a row := by
  unfold minesRow
  congr 1
  apply List.map_congr_left
  intro c _
  rw [alookup_cons_ne v val a (row, c)
    (fun heq => h (congrArg Prod.fst heq))]

theorem unassignedRow_cons_ne (vars : List Var) (a : Assign) (row : Nat)
    (v : Var) (val : Nat) (h : v.1 ≠ row) :
    unassignedRow vars ((v, val) :: a) row = unassignedRow vars a row := by
  unfold unassignedRow
  congr 1
  apply List.map_congr_left
  intro c _
  rw [alookup_cons_ne v val a (row, c)
    (fun heq => h (congrArg Prod.fst heq))]

theorem minesCol_cons_ne (a : Assign) (col : Nat) (v : Var) (val : Nat)
    (h : v.2 ≠ col) :
    minesCol ((v, val) :: a) col = minesCol a col := by
  unfold minesCol
  congr 1
  apply List.map_congr_left
  intro r _
  rw [alookup_cons_ne v val a (r, col)
    (fun heq => h (congrArg Prod.snd heq))]

theorem assignedCol_cons_ne (a : Assign) (col : Nat) (v : Var) (val : Nat)
    (h : v.2 ≠ col) :
    assignedCol ((v, val) :: a) col = assignedCol a col := by
  unfold assignedCol
  congr 1
  apply List.map_congr_left
  intro r _
  rw [alookup_cons_ne v val a (r, col)
    (fun heq => h (congrArg Prod.snd heq))]

theorem minesBlock_cons_not_mem (vars : List Var) (a : Assign)
    (r0 c0 : Nat) (v : Var) (val : Nat) (h : v ∉ blockCells r0 c0) :
    minesBlock vars ((v, val) :: a) r0 c0 = minesBlock vars a r0 c0 := by
  unfold minesBlock
  congr 1
  apply List.map_congr_left
  intro u hu
  rw [alookup_cons_ne v val a u (fun heq => h (heq ▸ hu))]

theorem unknownBlock_cons_not_mem (vars : List Var) (a : Assign)
    (r0 c0 : Nat) (v : Var) (val : Nat) (h : v ∉ blockCells r0 c0) :
    unknownBlock vars ((v, val) :: a) r0 c0 = unknownBlock vars a r0 c0 := by
  unfold unknownBlock
  congr 1
  apply List.map_congr_left
  intro u hu
  rw [alookup_cons_ne v val a u (fun heq => h (heq ▸ hu))]

theorem blockCells_rep (r c : Nat) :
    blockCells (r / 3 * 3) (c / 3 * 3) = blockCells r c := by
  unfold blockCells
  have h1 : r / 3 * 3 / 3 * 3 = r / 3 * 3 := by omega
  have h2 : c / 3 * 3 / 3 * 3 = c / 3 * 3 := by omega
  rw [h1, h2]

theorem length_filter_eq_sum {β : Type} (l : List β) (p : β → Bool) :
    (l.filter p).length = (l.map (fun x => if p x then 1 else 0)).sum := by
  induction l with
  | nil => rfl
  | cons b t ih =>
    rw [List.filter_cons, List.map_cons, List.sum_cons]
    by_cases hb : p b
    · rw [if_pos hb, if_pos hb, List.length_cons, ih]
      omega
    · rw [if_neg hb, if_neg hb, ih]
      omega

/-! ### Variable list lemmas -/

theorem mem_variablesOf (g : Grid) (v : Var) :
    v ∈ variablesOf g ↔ v.1 < 9 ∧ v.2 < 9 ∧ gridAt g v.1 v.2 = 0 := by
  obtain ⟨r, c⟩ := v
  simp only [variablesOf, List.mem_flatten, List.mem_map, List.mem_range]
  constructor
  · rintro ⟨l, ⟨r2, hr2, rfl⟩, hmem⟩
    rw [List.mem_filterMap] at hmem
    obtain ⟨c2, hc2, hsome⟩ := hmem
    rw [List.mem_range] at hc2
    by_cases hz : gridAt g r2 c2 = 0
    · rw [if_pos hz] at hsome
      obtain ⟨rfl, rfl⟩ : r2 = r ∧ c2 = c := by
        have := Option.some.inj hsome
        exact ⟨congrArg Prod.fst this, congrArg Prod.snd this⟩
      exact ⟨hr2, hc2, hz⟩
    · rw [if_neg hz] at hsome
      exact absurd hsome (by simp)
  · rintro ⟨hr, hc, hz⟩
    refine ⟨_, ⟨r, hr, rfl⟩, ?_⟩
    rw [List.mem_filterMap]
    exact ⟨c, List.mem_range.2 hc, by rw [if_pos hz]⟩

theorem variablesOf_bounds (g : Grid) :
    ∀ w ∈ variablesOf g, w.1 < 9 ∧ w.2 < 9 := by
  intro w hw
  have := (mem_variablesOf g w).1 hw
  exact ⟨this.1, this.2.1⟩

theorem variablesOf_nodup (g : Grid) : (variablesOf g).Nodup := by
  unfold variablesOf
  rw [List.nodup_flatten]
  constructor
  · intro l hl
    simp only [List.mem_map, List.mem_range] at hl
    obtain ⟨r, hr, rfl⟩ := hl
    refine List.Nodup.filterMap ?_ (List.nodup_range 9)
    intro c1 c2 b hb1 hb2
    simp only [Option.mem_def] at hb1 hb2
    by_cases h1 : gridAt g r c1 = 0
    · rw [if_pos h1] at hb1
      by_cases h2 : gridAt g r c2 = 0
      · rw [if_pos h2] at hb2
        have e1 := Option.some.inj hb1
        have e2 := Option.some.inj hb2
        rw [← e1] at e2
        exact (congrArg Prod.snd e2).symm
      · rw [if_neg h2] at hb2
        exact absurd hb2 (by simp)
    · rw [if_neg h1] at hb1
      exact absurd hb1 (by simp)
  · rw [List.pairwise_map]
    refine List.Pairwise.imp ?_ (List.pairwise_lt_range 9)
    intro r1 r2 hlt x hx1 hx2
    simp only [List.mem_filterMap, List.mem_range] at hx1 hx2
    obtain ⟨c1, -, hs1⟩ := hx1
    obtain ⟨c2, -, hs2⟩ := hx2
    by_cases h1 : gridAt g r1 c1 = 0
    · rw [if_pos h1] at hs1
      by_cases h2 : gridAt g r2 c2 = 0
      · rw [if_pos h2] at hs2
        have e1 := congrArg Prod.fst (Option.some.inj hs1)
        have e2 := congrArg Prod.fst (Option.some.inj hs2)
        simp only at e1 e2
        omega
      · rw [if_neg h2] at hs2
        exact absurd hs2 (by simp)
    · rw [if_neg h1] at hs1
      exact absurd hs1 (by simp)

/-! ### Solution grid lemmas -/

theorem getD_set_self {α : Type} :
    ∀ (l : List α) (i : Nat) (x d : α), i < l.length →
      (l.set i x).getD i d = x := by
  intro l
  induction l with
  | nil => intro i x d h; simp at h
  | cons b t ih =>
    intro i x d h
    cases i with
    | zero => rfl
    | succ i =>
      simp only [List.set_cons_succ, List.getD_cons_succ]
      exact ih i x d (by simpa using h)

theorem getD_set_ne {α : Type} :
    ∀ (l : List α) (i j : Nat) (x d : α), i ≠ j →
      (l.set i x).getD j d = l.getD j d := by
  intro l
  induction l with
  | nil => intro i j x d _; rfl
  | cons b t ih =>
    intro i j x d h
    cases i with
    | zero =>
      cases j with
      | zero => exact absurd rfl h
      | succ j => rfl
    | succ i =>
      cases j with
      | zero => rfl
      | succ j =>
        simp only [List.set_cons_succ, List.getD_cons_succ]
        exact ih i j x d (fun he => h (by rw [he]))

theorem getD_replicate9 {α : Type} :
    ∀ (i : Nat) (x d : α), (List.replicate 9 x).getD i d =
      if i < 9 then x else d := by
  intro i x d
  by_cases h : i < 9
  · rw [if_pos h]
    interval_cases i <;> rfl
  · rw [if_neg h]
    rw [List.getD_eq_getElem?_getD, List.getElem?_eq_none (by simpa using h)]
    rfl

theorem solutionAt_initSolution (r c : Nat) :
    solutionAt initSolution r c = 0 := by
  unfold solutionAt initSolution
  rw [getD_replicate9]
  by_cases hr : r < 9
  · rw [if_pos hr, getD_replicate9]
    by_cases hc : c < 9
    · rw [if_pos hc]
    · rw [if_neg hc]
  · rw [if_neg hr]
    rfl

theorem initSolution_shape :
    initSolution.length = 9 ∧ ∀ row ∈ initSolution, row.length = 9 := by
  constructor
  · rfl
  · intro row hrow
    rw [List.eq_of_mem_replicate hrow]
    rfl

theorem solutionAt_setCell (sol : List (List Nat)) (r0 c0 m : Nat)
    (hshape : sol.length = 9 ∧ ∀ row ∈ sol, row.length = 9)
    (hr0 : r0 < 9) (hc0 : c0 < 9) (r c : Nat) :
    solutionAt (setCell sol r0 c0 m) r c =
      if r0 = r ∧ c0 = c then m else solutionAt sol r c := by
  unfold solutionAt setCell
  have hrow : sol.getD r0 [] ∈ sol := by
    rw [List.getD_eq_getElem?_getD,
      List.getElem?_eq_getElem (by rw [hshape.1]; exact hr0)]
    exact List.getElem_mem _
  by_cases hr : r0 = r
  · subst hr
    rw [getD_set_self sol r0 _ [] (by rw [hshape.1]; exact hr0)]
    by_cases hc : c0 = c
    · subst hc
      rw [if_pos ⟨rfl, rfl⟩]
      exact getD_set_self _ c0 m 0 (by rw [hshape.2 _ hrow]; exact hc0)
    · rw [if_neg (fun hand => hc hand.2)]
      exact getD_set_ne _ c0 c m 0 hc
  · rw [if_neg (fun hand => hr hand.1), getD_set_ne sol r0 r _ [] hr]

theorem setCell_shape (sol : List (List Nat)) (r0 c0 m : Nat)
    (hshape : sol.length = 9 ∧ ∀ row ∈ sol, row.length = 9)
    (hr0 : r0 < 9) :
    (setCell sol r0 c0 m).length = 9 ∧
      ∀ row ∈ setCell sol r0 c0 m, row.length = 9 := by
  unfold setCell
  refine ⟨by rw [List.length_set, hshape.1], ?_⟩
  intro row hrow
  rcases List.mem_or_eq_of_mem_set hrow with h | h
  · exact hshape.2 _ h
  · rw [h, List.length_set]
    apply hshape.2
    rw [List.getD_eq_getElem?_getD,
      List.getElem?_eq_getElem (by rw [hshape.1]; exact hr0)]
    exact List.getElem_mem _

theorem solutionAt_writeSolution :
    ∀ (A : Assign) (sol : List (List Nat)),
      (sol.length = 9 ∧ ∀ row ∈ sol, row.length = 9) →
      (keysOf A).Nodup → (∀ k ∈ keysOf A, k.1 < 9 ∧ k.2 < 9) →
      ∀ r c, solutionAt (writeSolution sol A) r c =
        ((alookup A (r, c)).getD (solutionAt sol r c)) := by
  intro A
  induction A with
  | nil => intro sol _ _ _ r c; rfl
  | cons p rest ih =>
    obtain ⟨k, m⟩ := p
    intro sol hshape hnd hbnds r c
    have hk : k.1 < 9 ∧ k.2 < 9 := hbnds k (by simp [keysOf])
    have hnd2 : (keysOf rest).Nodup ∧ k ∉ keysOf rest := by
      have := hnd
      simp only [keysOf, List.map_cons, List.nodup_cons] at this
      exact ⟨this.2, this.1⟩
    have hbnds2 : ∀ q ∈ keysOf rest, q.1 < 9 ∧ q.2 < 9 := by
      intro q hq
      exact hbnds q (by simp [keysOf] at hq ⊢; exact Or.inr hq)
    have hshape2 := setCell_shape sol k.1 k.2 m hshape hk.1
    rw [show writeSolution sol ((k, m) :: rest) =
      writeSolution (setCell sol k.1 k.2 m) rest from rfl]
    rw [ih (setCell sol k.1 k.2 m) hshape2 hnd2.1 hbnds2 r c]
    rw [alookup_cons]
    by_cases hkrc : k = (r, c)
    · rw [if_pos hkrc]
      have hnone : alookup rest (r, c) = none := by
        rw [alookup_eq_none_iff]
        intro hmem
        exact hnd2.2 (hkrc ▸ hmem)
      rw [hnone, solutionAt_setCell sol k.1 k.2 m hshape hk.1 hk.2 r c,
        if_pos ⟨congrArg Prod.fst hkrc, congrArg Prod.snd hkrc⟩]
      rfl
    · rw [if_neg hkrc]
      rcases hrest : alookup rest (r, c) with _ | m2
      · simp only [Option.getD_none]
        rw [solutionAt_setCell sol k.1 k.2 m hshape hk.1 hk.2 r c,
          if_neg (fun hand => hkrc (Prod.ext hand.1 hand.2))]
      · rfl

/-! ### Complete-assignment count lemmas -/

theorem unassignedRow_complete (vars : List Var) (A : Assign)
    (hall : ∀ v ∈ vars, v ∈ keysOf A) (row : Nat) :
    unassignedRow vars A row = 0 := by
  unfold unassignedRow
  apply List.sum_eq_zero
  intro x hx
  simp only [List.mem_map, List.mem_range] at hx
  obtain ⟨c, hc, rfl⟩ := hx
  rw [if_neg]
  rintro ⟨hmem, hnone⟩
  rw [alookup_eq_none_iff] at hnone
  exact hnone (hall _ hmem)

theorem unknownBlock_complete (vars : List Var) (A : Assign)
    (hall : ∀ v ∈ vars, v ∈ keysOf A) (r0 c0 : Nat) :
    unknownBlock vars A r0 c0 = 0 := by
  unfold unknownBlock
  apply List.sum_eq_zero
  intro x hx
  simp only [List.mem_map] at hx
  obtain ⟨u, hu, rfl⟩ := hx
  rw [if_neg]
  rintro ⟨hmem, hnone⟩
  rw [alookup_eq_none_iff] at hnone
  exact hnone (hall _ hmem)

theorem unknownNbr_complete (vars : List Var) (A : Assign)
    (hall : ∀ v ∈ vars, v ∈ keysOf A) (r c : Nat) :
    unknownNbr vars A r c = 0 := by
  unfold unknownNbr
  apply List.sum_eq_zero
  intro x hx
  simp only [List.mem_map] at hx
  obtain ⟨u, hu, rfl⟩ := hx
  rw [if_neg]
  rintro ⟨hmem, hnone⟩
  rw [alookup_eq_none_iff] at hnone
  exact hnone (hall _ hmem)

theorem assignedCol_complete (vars : List Var) (A : Assign)
    (hall : ∀ v ∈ vars, v ∈ keysOf A)
    (hsub : ∀ k ∈ keysOf A, k ∈ vars) (col : Nat) :
    assignedCol A col = colVarCount vars col := by
  unfold assignedCol colVarCount
  rw [length_filter_eq_sum]
  congr 1
  apply List.map_congr_left
  intro r _
  by_cases hv : (r, col) ∈ vars
  · have h1 : (alookup A (r, col)).isSome = true :=
      (alookup_isSome_iff _ _).2 (hall _ hv)
    simp [h1, hv]
  · have h1 : (alookup A (r, col)).isSome = false := by
      rcases hx : alookup A (r, col) with _ | x
      · rfl
      · exfalso
        apply hv
        apply hsub
        rw [← alookup_isSome_iff]
        rw [hx]
        rfl
    simp [h1, hv]

/-! ### Solution sum translation lemmas -/

theorem sumRowVars_eq_minesRow (g : Grid) (A : Assign)
    (hnd : (keysOf A).Nodup) (hsub : ∀ k ∈ keysOf A, k ∈ variablesOf g)
    (row : Nat) (hrow : row < 9) :
    sumRowVars g (writeSolution initSolution A) row =
      minesRow (variablesOf g) A row := by
  have hbnds : ∀ k ∈ keysOf A, k.1 < 9 ∧ k.2 < 9 := fun k hk =>
    variablesOf_bounds g k (hsub k hk)
  unfold sumRowVars minesRow
  congr 1
  apply List.map_congr_left
  intro c hc
  rw [List.mem_range] at hc
  rw [solutionAt_writeSolution A initSolution initSolution_shape hnd hbnds
    row c, solutionAt_initSolution]
  by_cases hvar : (row, c) ∈ variablesOf g
  · have hz : gridAt g row c = 0 := ((mem_variablesOf g (row, c)).1 hvar).2.2
    rw [if_pos hz, if_pos hvar]
  · have hz : ¬gridAt g row c = 0 := fun hz =>
      hvar ((mem_variablesOf g (row, c)).2 ⟨hrow, hc, hz⟩)
    rw [if_neg hz, if_neg hvar]

theorem sumColVars_eq_minesCol (g : Grid) (A : Assign)
    (hnd : (keysOf A).Nodup) (hsub : ∀ k ∈ keysOf A, k ∈ variablesOf g)
    (col : Nat) (hcol : col < 9) :
    sumColVars g (writeSolution initSolution A) col =
      minesCol A col := by
  have hbnds : ∀ k ∈ keysOf A, k.1 < 9 ∧ k.2 < 9 := fun k hk =>
    variablesOf_bounds g k (hsub k hk)
  unfold sumColVars minesCol
  congr 1
  apply List.map_congr_left
  intro r hr
  rw [List.mem_range] at hr
  rw [solutionAt_writeSolution A initSolution initSolution_shape hnd hbnds
    r col, solutionAt_initSolution]
  by_cases hz : gridAt g r col = 0
  · rw [if_pos hz]
  · rw [if_neg hz]
    have hnone : alookup A (r, col) = none := by
      rw [alookup_eq_none_iff]
      intro hmem
      exact hz ((mem_variablesOf g (r, col)).1 (hsub _ hmem)).2.2
    rw [hnone]
    rfl

theorem sumBlockVars_eq_minesBlock (g : Grid) (A : Assign)
    (hnd : (keysOf A).Nodup) (hsub : ∀ k ∈ keysOf A, k ∈ variablesOf g)
    (b : Nat) (hbnd : b < 9) :
    sumBlockVars g (writeSolution initSolution A) b =
      minesBlock (variablesOf g) A (b / 3 * 3) (b % 3 * 3) := by
  have hbnds : ∀ k ∈ keysOf A, k.1 < 9 ∧ k.2 < 9 := fun k hk =>
    variablesOf_bounds g k (hsub k hk)
  unfold sumBlockVars minesBlock
  congr 1
  apply List.map_congr_left
  intro u hu
  rw [mem_blockCells] at hu
  have hub : u.1 < 9 ∧ u.2 < 9 := by
    obtain ⟨h1, h2⟩ := hu
    omega
  rw [solutionAt_writeSolution A initSolution initSolution_shape hnd hbnds
    u.1 u.2, solutionAt_initSolution]
  by_cases hvar : u ∈ variablesOf g
  · have hz : gridAt g u.1 u.2 = 0 := ((mem_variablesOf g u).1 hvar).2.2
    rw [if_pos hz, if_pos hvar]
  · have hz : ¬gridAt g u.1 u.2 = 0 := fun hz =>
      hvar ((mem_variablesOf g u).2 ⟨hub.1, hub.2, hz⟩)
    rw [if_neg hz, if_neg hvar]

theorem nbrSolutionSum_eq_minesNbr (g : Grid) (A : Assign)
    (hnd : (keysOf A).Nodup) (hsub : ∀ k ∈ keysOf A, k ∈ variablesOf g)
    (r c : Nat) :
    nbrSolutionSum (writeSolution initSolution A) r c = minesNbr A r c := by
  have hbnds : ∀ k ∈ keysOf A, k.1 < 9 ∧ k.2 < 9 := fun k hk =>
    variablesOf_bounds g k (hsub k hk)
  unfold nbrSolutionSum minesNbr
  congr 1
  apply List.map_congr_left
  intro u _
  rw [solutionAt_writeSolution A initSolution initSolution_shape hnd hbnds
    u.1 u.2, solutionAt_initSolution]

/-! ### solve() inversion helpers -/

theorem solveFull_success_inv (g : Grid)
    (hs : (solveFull g).success = true) :
    ∃ (A : Assign) (st2 : SearchState),
      backtrack g (variablesOf g) ((variablesOf g).length + 1)
        ⟨initDomains (variablesOf g), 0, 0, []⟩ [] 0 = (some A, st2) ∧
      (solveFull g).solution = writeSolution initSolution A ∧
      (solveFull g).goalDepth = st2.goalDepth ∧
      (solveFull g).nodes = st2.nodes ∧
      (solveFull g).trace = st2.trace := by
  simp only [solveFull, solveWith] at hs ⊢
  rcases hbt : backtrack g (variablesOf g) ((variablesOf g).length + 1)
      ⟨initDomains (variablesOf g), 0, 0, []⟩ [] 0 with ⟨ores, st2⟩
  rw [hbt] at hs
  cases ores with
  | none => exact Bool.noConfusion hs
  | some A => exact ⟨A, st2, hbt ▸ rfl, rfl, rfl, rfl, rfl⟩

theorem solveFull_failure_inv (g : Grid)
    (hf : (solveFull g).success = false) :
    ∃ st2 : SearchState,
      backtrack g (variablesOf g) ((variablesOf g).length + 1)
        ⟨initDomains (variablesOf g), 0, 0, []⟩ [] 0 = (none, st2) ∧
      (solveFull g).solution = initSolution ∧
      (solveFull g).goalDepth = st2.goalDepth ∧
      (solveFull g).nodes = st2.nodes ∧
      (solveFull g).trace = st2.trace := by
  simp only [solveFull, solveWith] at hf ⊢
  rcases hbt : backtrack g (variablesOf g) ((variablesOf g).length + 1)
      ⟨initDomains (variablesOf g), 0, 0, []⟩ [] 0 with ⟨ores, st2⟩
  rw [hbt] at hf
  cases ores with
  | none => exact ⟨st2, hbt ▸ rfl, rfl, rfl, rfl, rfl⟩
  | some A => exact Bool.noConfusion hf

/-- The group-sum invariant of partial assignments: every fully assigned
variable-containing row, column, and block carries exactly 3 mines. -/
theorem backtrack_group_invariant (g : Grid) (A : Assign)
    (st2 : SearchState)
    (hbt : backtrack g (variablesOf g) ((variablesOf g).length + 1)
      ⟨initDomains (variablesOf g), 0, 0, []⟩ [] 0 = (some A, st2)) :
    (∀ row, (∃ c2, (row, c2) ∈ variablesOf g) →
      unassignedRow (variablesOf g) A row = 0 →
      minesRow (variablesOf g) A row = 3) ∧
    (∀ col, (∃ r2, (r2, col) ∈ variablesOf g) →
      assignedCol A col = colVarCount (variablesOf g) col →
      minesCol A col = 3) ∧
    (∀ R C, R < 3 → C < 3 →
      (∃ u ∈ blockCells (R * 3) (C * 3), u ∈ variablesOf g) →
      unknownBlock (variablesOf g) A (R * 3) (C * 3) = 0 →
      minesBlock (variablesOf g) A (R * 3) (C * 3) = 3) := by
  have hbnds := variablesOf_bounds g
  refine backtrack_preserves g (variablesOf g) hbnds
    (fun B =>
      (∀ row, (∃ c2, (row, c2) ∈ variablesOf g) →
        unassignedRow (variablesOf g) B row = 0 →
        minesRow (variablesOf g) B row = 3) ∧
      (∀ col, (∃ r2, (r2, col) ∈ variablesOf g) →
        assignedCol B col = colVarCount (variablesOf g) col →
        minesCol B col = 3) ∧
      (∀ R C, R < 3 → C < 3 →
        (∃ u ∈ blockCells (R * 3) (C * 3), u ∈ variablesOf g) →
        unknownBlock (variablesOf g) B (R * 3) (C * 3) = 0 →
        minesBlock (variablesOf g) B (R * 3) (C * 3) = 3)) ?_
    ((variablesOf g).length + 1) _ [] 0 A st2 ?_ hbt
  · -- preservation by every consistent fresh binding
    intro a v val hvmem hvnone hcons hInv
    have htemp : dictInsert a v val = (v, val) :: a :=
      dictInsert_of_lookup_none a v val hvnone
    unfold isConsistent at hcons
    rw [htemp] at hcons
    simp only [Bool.and_eq_true] at hcons
    obtain ⟨⟨⟨hrow, hcol⟩, hblk⟩, -⟩ := hcons
    obtain ⟨hIr, hIc, hIb⟩ := hInv
    refine ⟨?_, ?_, ?_⟩
    · intro row hhas hzero
      by_cases hr : v.1 = row
      · have := (checkRow_true_iff (variablesOf g) v.1 ((v, val) :: a)).1
          hrow
        rw [hr] at this
        exact this.2.1 hzero
      · rw [minesRow_cons_ne (variablesOf g) a row v val hr]
        rw [unassignedRow_cons_ne (variablesOf g) a row v val hr] at hzero
        exact hIr row hhas hzero
    · intro col hhas heq
      by_cases hc : v.2 = col
      · have := (checkCol_true_iff (variablesOf g) v.2 ((v, val) :: a)).1
          hcol
        rw [hc] at this
        exact this.2 heq
      · rw [minesCol_cons_ne a col v val hc]
        rw [assignedCol_cons_ne a col v val hc] at heq
        exact hIc col hhas heq
    · intro R C hR hC hhas hzero
      by_cases hblk2 : v ∈ blockCells (R * 3) (C * 3)
      · rw [mem_blockCells] at hblk2
        have hR3 : R * 3 / 3 = R := by omega
        have hC3 : C * 3 / 3 = C := by omega
        have hcells : blockCells (R * 3) (C * 3) = blockCells v.1 v.2 := by
          have e1 : v.1 / 3 * 3 = R * 3 := by omega
          have e2 : v.2 / 3 * 3 = C * 3 := by omega
          rw [← e1, ← e2]
          exact blockCells_rep v.1 v.2
        have hmB : minesBlock (variablesOf g) ((v, val) :: a) (R * 3)
            (C * 3) = minesBlock (variablesOf g) ((v, val) :: a) v.1
            v.2 := by
          unfold minesBlock
          rw [hcells]
        have huB : unknownBlock (variablesOf g) ((v, val) :: a) (R * 3)
            (C * 3) = unknownBlock (variablesOf g) ((v, val) :: a) v.1
            v.2 := by
          unfold unknownBlock
          rw [hcells]
        have hCB := (checkBlock_true_iff (variablesOf g) v.1 v.2
          ((v, val) :: a)).1 hblk
        rw [hmB]
        rcases hCB.2.2 with hpos | hm3
        · exfalso
          rw [huB] at hzero
          omega
        · exact hm3
      · rw [minesBlock_cons_not_mem (variablesOf g) a _ _ v val hblk2]
        rw [unknownBlock_cons_not_mem (variablesOf g) a _ _ v val hblk2]
          at hzero
        exact hIb R C hR hC hhas hzero
  · -- the invariant holds for the empty assignment
    refine ⟨?_, ?_, ?_⟩
    · rintro row ⟨c2, hc2⟩ hzero
      exfalso
      have hb2 := hbnds _ hc2
      have h1 : (1 : Nat) ≤ unassignedRow (variablesOf g) [] row := by
        unfold unassignedRow
        have hmem : (if (row, c2) ∈ variablesOf g ∧
            alookup [] (row, c2) = none then 1 else 0) ∈
            (List.range 9).map (fun c =>
              if (row, c) ∈ variablesOf g ∧ alookup [] (row, c) = none
              then 1 else 0) :=
          List.mem_map.2 ⟨c2, List.mem_range.2 hb2.2, rfl⟩
        have hle := List.single_le_sum
          (fun (x : Nat) (_ : x ∈ _) => Nat.zero_le x) _ hmem
        rwa [if_pos ⟨hc2, rfl⟩] at hle
      omega
    · rintro col ⟨r2, hr2⟩ heq
      exfalso
      have h0 : assignedCol [] col = 0 := by
        simp [assignedCol, alookup]
      have hb2 := hbnds _ hr2
      have h1 : 1 ≤ colVarCount (variablesOf g) col := by
        unfold colVarCount
        have hmem : r2 ∈ (List.range 9).filter
            (fun r => decide ((r, col) ∈ variablesOf g)) :=
          List.mem_filter.2 ⟨List.mem_range.2 hb2.1, by simpa using hr2⟩
        exact List.length_pos_of_mem hmem
      omega
    · rintro R C hR hC ⟨u, hu, humem⟩ hzero
      exfalso
      have h1 : (1 : Nat) ≤ unknownBlock (variablesOf g) [] (R * 3)
          (C * 3) := by
        unfold unknownBlock
        have hmem : (if u ∈ variablesOf g ∧ alookup [] u = none
            then 1 else 0) ∈ (blockCells (R * 3) (C * 3)).map (fun v =>
              if v ∈ variablesOf g ∧ alookup [] v = none then 1 else 0) :=
          List.mem_map.2 ⟨u, hu, rfl⟩
        have hle := List.single_le_sum
          (fun (x : Nat) (_ : x ∈ _) => Nat.zero_le x) _ hmem
        rwa [if_pos ⟨humem, rfl⟩] at hle
      omega

/-- C1 (amended): for every grid on which `solve()` reports success, each
of the 9 rows, 9 columns, and 9 blocks that contains at least one
variable (blank) cell has solution values summing to exactly 3 over its
variable cells. (Groups without a single blank cell are never examined
by any checker, so their — empty — sums are not constrained.) -/
theorem solve_success_group_sums (g : Grid) (hdim : dims9 g)
    (hs : (solveFull g).success = true) :
    (∀ row, row < 9 → (∃ c, c < 9 ∧ gridAt g row c = 0) →
      sumRowVars g (solveFull g).solution row = 3) ∧
    (∀ col, col < 9 → (∃ r, r < 9 ∧ gridAt g r col = 0) →
      sumColVars g (solveFull g).solution col = 3) ∧
    (∀ b, b < 9 → (∃ u ∈ blockCells (b / 3 * 3) (b % 3 * 3),
        gridAt g u.1 u.2 = 0) →
      sumBlockVars g (solveFull g).solution b = 3) := by
  obtain ⟨A, st2, hbt, hsol, -, -, -⟩ := solveFull_success_inv g hs
  have hvnd := variablesOf_nodup g
  have hbnds := variablesOf_bounds g
  obtain ⟨hnd, hsub, hlen, -, -⟩ :=
    ((backtrack_stats g (variablesOf g) hvnd hbnds
      ((variablesOf g).length + 1) _ [] 0 (by simp [keysOf])
      (by simp [keysOf])).2 A st2 hbt)
  have hall : ∀ v ∈ variablesOf g, v ∈ keysOf A :=
    assign_complete (variablesOf g) hvnd A hnd hsub hlen
  obtain ⟨hIr, hIc, hIb⟩ := backtrack_group_invariant g A st2 hbt
  refine ⟨?_, ?_, ?_⟩
  · intro row hrow ⟨c, hc, hz⟩
    have hvmem : (row, c) ∈ variablesOf g :=
      (mem_variablesOf g (row, c)).2 ⟨hrow, hc, hz⟩
    rw [hsol, sumRowVars_eq_minesRow g A hnd hsub row hrow]
    exact hIr row ⟨c, hvmem⟩ (unassignedRow_complete _ A hall row)
  · intro col hcol ⟨r, hr, hz⟩
    have hvmem : (r, col) ∈ variablesOf g :=
      (mem_variablesOf g (r, col)).2 ⟨hr, hcol, hz⟩
    rw [hsol, sumColVars_eq_minesCol g A hnd hsub col hcol]
    exact hIc col ⟨r, hvmem⟩
      (assignedCol_complete (variablesOf g) A hall hsub col)
  · intro b hb ⟨u, hu, hz⟩
    have hub : u.1 < 9 ∧ u.2 < 9 := by
      rw [mem_blockCells] at hu
      omega
    have hvmem : u ∈ variablesOf g :=
      (mem_variablesOf g u).2 ⟨hub.1, hub.2, hz⟩
    rw [hsol, sumBlockVars_eq_minesBlock g A hnd hsub b hb]
    have e1 : b / 3 * 3 = b / 3 * 3 := rfl
    have hctr := hIb (b / 3) (b % 3) (by omega) (by omega)
    rw [show b / 3 * 3 = b / 3 * 3 from rfl] at hctr
    exact hctr ⟨u, hu, hvmem⟩
      (unknownBlock_complete (variablesOf g) A hall _ _)

/-! ### Concrete runs of the solver, evaluated once and for all -/

set_option maxRecDepth 100000

set_option maxHeartbeats 4000000

theorem variablesOf_gridSmall : variablesOf gridSmall = varsSmall := by
  decide

theorem variablesOf_gridSmallFail :
    variablesOf gridSmallFail = varsSmall := by
  decide

theorem variablesOf_gridAllOnes : variablesOf gridAllOnes = [] := by
  decide

theorem solveFull_gridSmall_eq :
    solveFull gridSmall =
      ⟨true, solutionSmall, 9, 10, [0, 1, 2, 3, 4, 5, 6, 7, 8, 9]⟩ := by
  show solveWith gridSmall (variablesOf gridSmall) = _
  rw [variablesOf_gridSmall]
  rfl

theorem solveFull_gridSmallFail_eq :
    solveFull gridSmallFail = ⟨false, initSolution, 0, 3, [0, 1, 2]⟩ := by
  show solveWith gridSmallFail (variablesOf gridSmallFail) = _
  rw [variablesOf_gridSmallFail]
  rfl

theorem solveFull_gridAllOnes_eq :
    solveFull gridAllOnes = ⟨true, initSolution, 0, 1, [0]⟩ := by
  show solveWith gridAllOnes (variablesOf gridAllOnes) = _
  rw [variablesOf_gridAllOnes]
  rfl

/-! ### C1: counterexample to the unrestricted claim, and witness -/

/-- C1 counterexample: on the all-clues grid `gridAllOnes` the solver
reports success, yet row 0 has no variable cell at all, so the sum of
solution values over its variable cells is the empty sum 0, not 3. The
unrestricted claim "each of the 9 rows ... equals exactly 3" is false;
it holds only for groups containing at least one blank cell. -/
theorem solve_success_group_sums_cex :
    (solveFull gridAllOnes).success = true ∧
    sumRowVars gridAllOnes (solveFull gridAllOnes).solution 0 = 0 ∧
    sumColVars gridAllOnes (solveFull gridAllOnes).solution 0 = 0 ∧
    sumBlockVars gridAllOnes (solveFull gridAllOnes).solution 0 = 0 := by
  rw [solveFull_gridAllOnes_eq]
  decide

theorem solve_success_group_sums_witness :
    dims9 gridSmall ∧ (solveFull gridSmall).success = true ∧
    sumRowVars gridSmall (solveFull gridSmall).solution 0 = 3 := by
  have hd : dims9 gridSmall := by
    constructor
    · rfl
    · decide
  have hs : (solveFull gridSmall).success = true := by
    rw [solveFull_gridSmall_eq]
  exact ⟨hd, hs, (solve_success_group_sums gridSmall hd hs).1 0 (by decide)
    ⟨0, by decide, by decide⟩⟩

/-! ### C3: clue cells and clue accuracy -/

/-- C3 (amended): for every grid on which `solve()` reports success, the
solution value at every clue (non-variable) cell is 0 — unconditionally —
and, provided the grid has at least one variable (blank) cell, every clue
cell with value k > 0 has solution values over its up-to-8 neighbors
summing to exactly k. (On a grid with no blank cell the search succeeds
on the empty assignment without evaluating a single constraint, so clue
accuracy can fail there.) -/
theorem solve_success_clue_constraints (g : Grid)
    (hs : (solveFull g).success = true) :
    (∀ r c, gridAt g r c ≠ 0 →
      solutionAt (solveFull g).solution r c = 0) ∧
    (variablesOf g ≠ [] →
      ∀ r c, r < 9 → c < 9 → 0 < gridAt g r c →
        (nbrSolutionSum (solveFull g).solution r c : Int) =
          gridAt g r c) := by
  obtain ⟨A, st2, hbt, hsol, -, -, -⟩ := solveFull_success_inv g hs
  have hvnd := variablesOf_nodup g
  have hbnds := variablesOf_bounds g
  obtain ⟨hnd, hsub, hlen, -, -⟩ :=
    ((backtrack_stats g (variablesOf g) hvnd hbnds
      ((variablesOf g).length + 1)
      ⟨initDomains (variablesOf g), 0, 0, []⟩ [] 0 (by simp [keysOf])
      (by simp [keysOf])).2 A st2 hbt)
  have hkb : ∀ k ∈ keysOf A, k.1 < 9 ∧ k.2 < 9 := fun k hk =>
    hbnds k (hsub k hk)
  constructor
  · intro r c hnz
    rw [hsol, solutionAt_writeSolution A initSolution initSolution_shape
      hnd hkb r c]
    have hnone : alookup A (r, c) = none := by
      rw [alookup_eq_none_iff]
      intro hmem
      exact hnz ((mem_variablesOf g (r, c)).1 (hsub _ hmem)).2.2
    rw [hnone, Option.getD_none, solutionAt_initSolution]
  · intro hne r c hr hc hpos
    have hlen0 : ([] : Assign).length ≠ (variablesOf g).length := by
      simp only [List.length_nil]
      intro h
      exact hne (List.eq_nil_of_length_eq_zero h.symm)
    obtain ⟨v, val, b, hvmem, hbnone, hcons, hA⟩ :=
      backtrack_last_check g (variablesOf g) hbnds
        ((variablesOf g).length + 1)
        ⟨initDomains (variablesOf g), 0, 0, []⟩ [] 0 A st2 hlen0 hbt
    unfold isConsistent at hcons
    rw [← hA] at hcons
    simp only [Bool.and_eq_true] at hcons
    have hnum := hcons.2
    have hall : ∀ w ∈ variablesOf g, w ∈ keysOf A :=
      assign_complete (variablesOf g) hvnd A hnd hsub hlen
    have hiff := (checkNumbered_true_iff g (variablesOf g) A).1 hnum
      r hr c hc hpos
    have hu0 := unknownNbr_complete (variablesOf g) A hall r c
    rw [hsol, nbrSolutionSum_eq_minesNbr g A hnd hsub r c]
    exact hiff.2 hu0

/-- C3 counterexample: on the all-clues grid `gridAllOnes` the solver
reports success, the clue cell (0,0) holds 1, yet the solution values
over its neighbors sum to 0 — clue accuracy fails when the grid has no
blank cell, because the search then never evaluates any constraint. -/
theorem clue_accuracy_cex :
    (solveFull gridAllOnes).success = true ∧
    gridAt gridAllOnes 0 0 = 1 ∧
    nbrSolutionSum (solveFull gridAllOnes).solution 0 0 = 0 := by
  rw [solveFull_gridAllOnes_eq]
  decide

theorem solve_success_clue_constraints_witness :
    (solveFull gridSmall).success = true ∧
    solutionAt (solveFull gridSmall).solution 0 1 = 0 ∧
    (nbrSolutionSum (solveFull gridSmall).solution 0 1 : Int) =
      gridAt gridSmall 0 1 := by
  have hs : (solveFull gridSmall).success = true := by
    rw [solveFull_gridSmall_eq]
  refine ⟨hs, ?_, ?_⟩
  · exact (solve_success_clue_constraints gridSmall hs).1 0 1 (by decide)
  · exact (solve_success_clue_constraints gridSmall hs).2 (by decide) 0 1
      (by decide) (by decide) (by decide)

/-! ### C6: goal depth after solve() -/

/-- C6 (amended): after `solve()`, on success `goal_depth` equals the
number of variables (all variables are bound at the moment of success);
on failure `goal_depth` is still its initial value 0 — it does NOT
reflect the depth of the last expansion, because the only write to
`goal_depth` is on the complete-assignment success path. -/
theorem goal_depth_final (g : Grid) :
    ((solveFull g).success = true →
      (solveFull g).goalDepth = (variablesOf g).length) ∧
    ((solveFull g).success = false → (solveFull g).goalDepth = 0) := by
  constructor
  · intro hs
    obtain ⟨A, st2, hbt, -, hgd, -, -⟩ := solveFull_success_inv g hs
    obtain ⟨-, -, -, hd, -⟩ :=
      ((backtrack_stats g (variablesOf g) (variablesOf_nodup g)
        (variablesOf_bounds g) ((variablesOf g).length + 1)
        ⟨initDomains (variablesOf g), 0, 0, []⟩ [] 0 (by simp [keysOf])
        (by simp [keysOf])).2 A st2 hbt)
    rw [hgd, hd]
    simp
  · intro hf
    obtain ⟨st2, hbt, -, hgd, -, -⟩ := solveFull_failure_inv g hf
    have hst :=
      ((backtrack_stats g (variablesOf g) (variablesOf_nodup g)
        (variablesOf_bounds g) ((variablesOf g).length + 1)
        ⟨initDomains (variablesOf g), 0, 0, []⟩ [] 0 (by simp [keysOf])
        (by simp [keysOf])).1 st2 hbt)
    rw [hgd, hst.1]

/-- C6 counterexample: on `gridSmallFail` the search fails after
expanding nodes at depths 0, 1 and 2 (the invocation-depth trace is
[0, 1, 2], so the last expansion happened at depth 2), yet `goal_depth`
is left at 0: on failure it does not reflect the depth at which the
search ceased. -/
theorem goal_depth_cex :
    (solveFull gridSmallFail).success = false ∧
    (solveFull gridSmallFail).trace.getLast? = some 2 ∧
    (solveFull gridSmallFail).goalDepth = 0 ∧
    (solveFull gridSmallFail).goalDepth ≠ 2 := by
  rw [solveFull_gridSmallFail_eq]
  decide

theorem goal_depth_final_witness :
    (solveFull gridSmall).goalDepth = (variablesOf gridSmall).length ∧
    (solveFull gridSmallFail).goalDepth = 0 :=
  ⟨(goal_depth_final gridSmall).1 (by rw [solveFull_gridSmall_eq]),
   (goal_depth_final gridSmallFail).2
     (by rw [solveFull_gridSmallFail_eq])⟩

/-! ### C7: node counting -/

/-- C7: every run of `backtrack` extends the invocation-depth trace by
one entry per recursive invocation (including the terminating success
call) and increments `nodes_generated` by exactly the number of new
trace entries — one per invocation; after `solve()` the counter equals
the total number of invocations recorded, is at least the variable count
on success and at least 1 on failure. -/
theorem nodes_generated_accounting (g : Grid) :
    (∀ (fuel : Nat) (st : SearchState) (a : Assign) (depth : Nat)
       (ores : Option Assign) (st2 : SearchState),
      (keysOf a).Nodup → (∀ k ∈ keysOf a, k ∈ variablesOf g) →
      backtrack g (variablesOf g) fuel st a depth = (ores, st2) →
      ∃ t : List Nat, st2.trace = st.trace ++ t ∧
        st2.nodes = st.nodes + t.length) ∧
    (solveFull g).nodes = (solveFull g).trace.length ∧
    ((solveFull g).success = true →
      (variablesOf g).length ≤ (solveFull g).nodes) ∧
    ((solveFull g).success = false → 1 ≤ (solveFull g).nodes) := by
  have hvnd := variablesOf_nodup g
  have hbnds := variablesOf_bounds g
  refine ⟨?_, ?_, ?_, ?_⟩
  · intro fuel st a depth ores st2 hnd hsub hbt
    cases ores with
    | none =>
      obtain ⟨-, t, ht, hn, -⟩ :=
        ((backtrack_stats g (variablesOf g) hvnd hbnds fuel st a depth
          hnd hsub).1 st2 hbt)
      exact ⟨t, ht, hn⟩
    | some A =>
      obtain ⟨-, -, -, -, t, ht, hn, -⟩ :=
        ((backtrack_stats g (variablesOf g) hvnd hbnds fuel st a depth
          hnd hsub).2 A st2 hbt)
      exact ⟨t, ht, hn⟩
  · cases hsucc : (solveFull g).success with
    | false =>
      obtain ⟨st2, hbt, -, -, hn, ht⟩ := solveFull_failure_inv g hsucc
      obtain ⟨-, t, ht2, hn2, -⟩ :=
        ((backtrack_stats g (variablesOf g) hvnd hbnds
          ((variablesOf g).length + 1)
          ⟨initDomains (variablesOf g), 0, 0, []⟩ [] 0
          (by simp [keysOf]) (by simp [keysOf])).1 st2 hbt)
      rw [hn, ht, hn2, ht2]
      simp
    | true =>
      obtain ⟨A, st2, hbt, -, -, hn, ht⟩ := solveFull_success_inv g hsucc
      obtain ⟨-, -, -, -, t, ht2, hn2, -⟩ :=
        ((backtrack_stats g (variablesOf g) hvnd hbnds
          ((variablesOf g).length + 1)
          ⟨initDomains (variablesOf g), 0, 0, []⟩ [] 0
          (by simp [keysOf]) (by simp [keysOf])).2 A st2 hbt)
      rw [hn, ht, hn2, ht2]
      simp
  · intro hs
    obtain ⟨A, st2, hbt, -, -, hn, -⟩ := solveFull_success_inv g hs
    obtain ⟨-, -, -, -, t, -, hn2, hge⟩ :=
      ((backtrack_stats g (variablesOf g) hvnd hbnds
        ((variablesOf g).length + 1)
        ⟨initDomains (variablesOf g), 0, 0, []⟩ [] 0
        (by simp [keysOf]) (by simp [keysOf])).2 A st2 hbt)
    simp only [List.length_nil] at hge
    rw [hn, hn2]
    omega
  · intro hf
    obtain ⟨st2, hbt, -, -, hn, -⟩ := solveFull_failure_inv g hf
    obtain ⟨-, t, -, hn2, hfuel⟩ :=
      ((backtrack_stats g (variablesOf g) hvnd hbnds
        ((variablesOf g).length + 1)
        ⟨initDomains (variablesOf g), 0, 0, []⟩ [] 0
        (by simp [keysOf]) (by simp [keysOf])).1 st2 hbt)
    have h1 := hfuel (Nat.succ_ne_zero _)
    rw [hn, hn2]
    omega

theorem nodes_generated_accounting_witness :
    (solveFull gridSmall).success = true ∧
    (solveFull gridSmall).nodes = (solveFull gridSmall).trace.length ∧
    (variablesOf gridSmall).length ≤ (solveFull gridSmall).nodes :=
  ⟨by rw [solveFull_gridSmall_eq],
   (nodes_generated_accounting gridSmall).2.1,
   (nodes_generated_accounting gridSmall).2.2.1
     (by rw [solveFull_gridSmall_eq])⟩

/-! ### C10: the solution grid is untouched by a failed search -/

/-- C10: for every grid, if `solve()` returns failure then the public
solution grid is still the all-zero 9×9 grid (`initSolution`) — no value
from any partial assignment explored during the failed search is ever
written into it, since writing happens only on the success path. -/
theorem solve_failure_solution_untouched (g : Grid)
    (hf : (solveFull g).success = false) :
    (solveFull g).solution = initSolution ∧
    ∀ r c, solutionAt (solveFull g).solution r c = 0 := by
  obtain ⟨st2, -, hsol, -, -, -⟩ := solveFull_failure_inv g hf
  refine ⟨hsol, fun r c => ?_⟩
  rw [hsol, solutionAt_initSolution]

theorem solve_failure_solution_untouched_witness :
    (solveFull gridSmallFail).success = false ∧
    (solveFull gridSmallFail).solution = initSolution :=
  ⟨by rw [solveFull_gridSmallFail_eq],
   (solve_failure_solution_untouched gridSmallFail
     (by rw [solveFull_gridSmallFail_eq])).1⟩

end SudokuMine
